import Mathlib

/-!
Verification development for the recursive text chunker
(`src/chonkie/chunkers/recursive_chunker.py`).

Strings are modelled as lists of unicode code points (`Str := List Char`),
matching Python string semantics.  Token counts flow through Python float
arithmetic because `_estimate_token_count` can return `float("inf")`; the
type `FVal` models exactly the values reachable there: `nan`, `-inf`,
finite integers and `+inf`, with IEEE comparison semantics (`nan`
incomparable).
-/

/-- String model: a Python `str` is a sequence of code points. -/
abbrev Str := List Char

/-- The numeric values reachable in the chunker's token-count arithmetic:
Python ints together with the IEEE floats `inf`, `-inf` and `nan` that
`float("inf")` arithmetic can produce. -/
inductive FVal where
  | nan
  | ninf
  | fin (n : Int)
  | pinf
deriving DecidableEq

/-- Python `<` on `FVal` (`nan` compares false with everything). -/
def FVal.lt : FVal → FVal → Bool
  | .fin a, .fin b => a < b
  | .fin _, .pinf => true
  | .ninf, .fin _ => true
  | .ninf, .pinf => true
  | _, _ => false

/-- Python `>` on `FVal`. -/
def FVal.gt (a b : FVal) : Bool := FVal.lt b a

/-- Python `<=` on `FVal` (`nan` compares false with everything). -/
def FVal.le : FVal → FVal → Bool
  | .fin a, .fin b => a ≤ b
  | .fin _, .pinf => true
  | .ninf, .fin _ => true
  | .ninf, .pinf => true
  | .ninf, .ninf => true
  | .pinf, .pinf => true
  | _, _ => false

/-- Python `+` on `FVal` (int/float addition; `inf + (-inf) = nan`). -/
def FVal.add : FVal → FVal → FVal
  | .nan, _ => .nan
  | _, .nan => .nan
  | .fin a, .fin b => .fin (a + b)
  | .fin _, .pinf => .pinf
  | .fin _, .ninf => .ninf
  | .pinf, .fin _ => .pinf
  | .pinf, .pinf => .pinf
  | .pinf, .ninf => .nan
  | .ninf, .fin _ => .ninf
  | .ninf, .ninf => .ninf
  | .ninf, .pinf => .nan

/-- Negation on `FVal`. -/
def FVal.neg : FVal → FVal
  | .nan => .nan
  | .ninf => .pinf
  | .pinf => .ninf
  | .fin a => .fin (-a)

/-- Python `-` on `FVal` (`inf - inf = nan`). -/
def FVal.sub (a b : FVal) : FVal := a.add b.neg

/-- A value that can actually appear in a token-count list handed to the
merger: a Python int or `float("inf")` (`_estimate_token_count` returns
exactly these). -/
def FVal.isTC : FVal → Prop
  | .fin _ => True
  | .pinf => True
  | _ => False

instance : DecidablePred FVal.isTC := by
  intro v
  cases v <;> simp [FVal.isTC] <;> infer_instance

/-- A nonnegative token count (a real tokenizer's `count_tokens` is a count). -/
def FVal.isNNTC : FVal → Prop
  | .fin n => 0 ≤ n
  | .pinf => True
  | _ => False

instance : DecidablePred FVal.isNNTC := by
  intro v
  cases v <;> simp [FVal.isNNTC] <;> infer_instance

theorem FVal.le_trans {a b c : FVal} (hab : FVal.le a b = true)
    (hbc : FVal.le b c = true) : FVal.le a c = true := by
  cases a <;> cases b <;> cases c <;>
    simp_all [FVal.le] <;> omega

theorem FVal.lt_of_le_of_lt {a b x : FVal} (hab : FVal.le a b = true)
    (hbx : FVal.lt b x = true) : FVal.lt a x = true := by
  cases a <;> cases b <;> cases x <;>
    simp_all [FVal.le, FVal.lt] <;> omega

/-!
## `bisect_left`

CPython's `bisect.bisect_left(a, x, lo, hi)` is the binary search

```
while lo < hi:
    mid = (lo + hi) // 2
    if a[mid] < x: lo = mid + 1
    else: hi = mid
return lo
```

Each iteration strictly shrinks `hi - lo`, so running the structural
recursion below with fuel `hi - lo` performs exactly the iterations the
`while` loop performs (when the fuel hits `0` the remaining interval is
already empty, which is the loop's exit condition).
-/

/-- One fuelled unrolling of CPython's `bisect_left` loop. -/
def bisectAux (a : List FVal) (x : FVal) : Nat → Nat → Nat → Nat
  | 0, lo, _ => lo
  | fuel + 1, lo, hi =>
    if lo < hi then
      let mid := (lo + hi) / 2
      if FVal.lt (a.getD mid .nan) x then bisectAux a x fuel (mid + 1) hi
      else bisectAux a x fuel lo mid
    else lo

/-- Model of `bisect.bisect_left(a, x, lo, hi)`. -/
def bisectLeft (a : List FVal) (x : FVal) (lo hi : Nat) : Nat :=
  bisectAux a x (hi - lo) lo hi

theorem bisectAux_ge_lo (a : List FVal) (x : FVal) :
    ∀ fuel lo hi, lo ≤ bisectAux a x fuel lo hi := by
  intro fuel
  induction fuel with
  | zero => intro lo hi; simp [bisectAux]
  | succ f ih =>
    intro lo hi
    simp only [bisectAux]
    split
    · split
      · exact le_trans (by omega) (ih _ hi)
      · exact ih lo _
    · exact Nat.le_refl lo

theorem bisectAux_le_hi (a : List FVal) (x : FVal) :
    ∀ fuel lo hi, lo ≤ hi → hi - lo ≤ fuel → bisectAux a x fuel lo hi ≤ hi ∧
      (bisectAux a x fuel lo hi < hi →
        FVal.lt (a.getD (bisectAux a x fuel lo hi) .nan) x = false) := by
  intro fuel
  induction fuel with
  | zero =>
    intro lo hi h hf
    simp only [bisectAux]
    exact ⟨h, fun hlt => absurd hlt (by omega)⟩
  | succ f ih =>
    intro lo hi h hf
    simp only [bisectAux]
    split
    · rename_i hlohi
      split
      · exact ih ((lo + hi) / 2 + 1) hi (by omega) (by omega)
      · rename_i hmid
        have := ih lo ((lo + hi) / 2) (by omega) (by omega)
        refine ⟨le_trans this.1 (by omega), ?_⟩
        intro hr
        rcases Nat.lt_or_ge (bisectAux a x f lo ((lo + hi) / 2)) ((lo + hi) / 2) with hc | hc
        · exact this.2 hc
        · have heq : bisectAux a x f lo ((lo + hi) / 2) = (lo + hi) / 2 := by
            have hle := this.1
            omega
          rw [heq]
          simpa using hmid
    · exact ⟨h, fun hlt => absurd hlt (by omega)⟩

theorem bisectAux_below (a : List FVal) (x : FVal)
    (hdc : ∀ i j : Nat, i ≤ j → FVal.lt (a.getD j .nan) x = true →
      FVal.lt (a.getD i .nan) x = true) :
    ∀ fuel lo hi j, lo ≤ j → j < bisectAux a x fuel lo hi →
      FVal.lt (a.getD j .nan) x = true := by
  intro fuel
  induction fuel with
  | zero =>
    intro lo hi j h1 h2
    simp only [bisectAux] at h2
    omega
  | succ f ih =>
    intro lo hi j h1 h2
    simp only [bisectAux] at h2
    split at h2
    · split at h2
      · rename_i hlohi hmid
        rcases Nat.lt_or_ge j ((lo + hi) / 2 + 1) with hj | hj
        · exact hdc j ((lo + hi) / 2) (by omega) hmid
        · exact ih ((lo + hi) / 2 + 1) hi j hj h2
      · exact ih lo ((lo + hi) / 2) j h1 h2
    · omega

theorem bisectAux_le_of_all_ge (a : List FVal) (x : FVal) (q : Nat)
    (hq : ∀ j, q ≤ j → FVal.lt (a.getD j .nan) x = false) :
    ∀ fuel lo hi, lo ≤ q → bisectAux a x fuel lo hi ≤ q := by
  intro fuel
  induction fuel with
  | zero => intro lo hi h; simpa [bisectAux] using h
  | succ f ih =>
    intro lo hi h
    simp only [bisectAux]
    split
    · split
      · rename_i hmid
        have hlt : (lo + hi) / 2 < q := by
          by_contra hcon
          have := hq ((lo + hi) / 2) (by omega)
          rw [this] at hmid
          exact absurd hmid (by simp)
        exact ih ((lo + hi) / 2 + 1) hi (by omega)
      · exact ih lo _ h
    · exact h

/-!
## `_merge_splits` (recursive_chunker.py lines 188-254)

`cumulative` models `list(accumulate([0] + token_counts))`, with the
`lambda x, y: x + y + 1` variant when `combine_whitespace` is set.
`codeSelect` models lines 226-239 (the `bisect_left`-based boundary
selection plus the forced advance), `mergeLoop` the `while` loop (fuelled:
`none` means the loop has not finished within `fuel` iterations), and
`mergeSplits` the whole method.  `chunk_size <= 0` is rejected by the
constructor, so the `point - 1` truncation at `point = 0` (where CPython
would produce `-1`) is unreachable in every statement below, all of which
assume `0 < chunkSize`.
-/

/-- Message of the `ValueError` raised on a length mismatch. -/
def mergeMismatchMsg : String :=
  "Number of splits does not match number of token counts"

/-- Model of `list(accumulate([0] + token_counts))`, resp. the `+1`-per-step variant. -/
def cumulative (tokenCounts : List FVal) (combine : Bool) : List FVal :=
  if combine then
    tokenCounts.scanl (fun x y => FVal.add (FVal.add x y) (.fin 1)) (.fin 0)
  else
    tokenCounts.scanl FVal.add (.fin 0)

/-- Lines 226-239: `index = min(bisect_left(cum, cur + chunk_size, lo=cur) - 1,
len(splits))`, then `if index == current_index: index += 1`. -/
def codeSelect (c : List FVal) (current len chunkSize : Nat) : Nat :=
  let required := FVal.add (c.getD current .nan) (.fin chunkSize)
  let point := bisectLeft c required current c.length
  let idx := min (point - 1) len
  if idx = current then current + 1 else idx

/-- Python `l[a:b]` for `0 <= a, b`. -/
def sliceList (l : List Str) (a b : Nat) : List Str := (l.drop a).take (b - a)

/-- Python space-join of the pieces, resp. plain concatenation. -/
def joinPieces (combine : Bool) (pieces : List Str) : Str :=
  if combine then List.intercalate ([' ']) pieces else pieces.flatten

/-- The `while current_index < len(splits)` loop of `_merge_splits`,
producing the `merged` and `combined_token_counts` lists from state
`current` on.  Each iteration consumes one unit of fuel; `none` means the
loop is still running after `fuel` iterations. -/
def mergeLoop (chunkSize : Nat) (combine : Bool) (splits : List Str)
    (c : List FVal) : Nat → Nat → Option (List Str × List FVal)
  | 0, _ => none
  | fuel + 1, current =>
    if current < splits.length then
      let idx := codeSelect c current splits.length chunkSize
      let piece := joinPieces combine (sliceList splits current idx)
      let delta := FVal.sub (c.getD (min idx splits.length) .nan)
        (c.getD current .nan)
      match mergeLoop chunkSize combine splits c fuel idx with
      | none => none
      | some (ms, ds) => some (piece :: ms, delta :: ds)
    else some ([], [])

/-- Model of `_merge_splits(splits, token_counts, combine_whitespace)`.
`none` = the internal loop diverges; `some (.error _)` = `ValueError`;
`some (.ok _)` = normal return. -/
def mergeSplits (chunkSize fuel : Nat) (splits : List Str)
    (tokenCounts : List FVal) (combine : Bool) :
    Option (Except String (List Str × List FVal)) :=
  if splits = [] ∨ tokenCounts = [] then some (.ok ([], []))
  else if splits.length ≠ tokenCounts.length then some (.error mergeMismatchMsg)
  else if tokenCounts.all (fun v => FVal.gt v (.fin chunkSize)) then
    some (.ok (splits, tokenCounts))
  else (mergeLoop chunkSize combine splits (cumulative tokenCounts combine)
    fuel 0).map .ok

theorem getD_mem_of_lt {α : Type} {l : List α} {i : Nat} {d : α}
    (h : i < l.length) : l.getD i d ∈ l := by
  rw [List.getD_eq_getElem _ _ h]
  exact List.getElem_mem h

theorem cumulative_length (tokenCounts : List FVal) (combine : Bool) :
    (cumulative tokenCounts combine).length = tokenCounts.length + 1 := by
  cases combine <;> simp [cumulative, List.length_scanl]

theorem cumulative_zero (tokenCounts : List FVal) (combine : Bool) :
    (cumulative tokenCounts combine).getD 0 .nan = .fin 0 := by
  cases combine <;> cases tokenCounts <;> simp [cumulative, List.scanl]

theorem scanl_getD_succ (f : FVal → FVal → FVal) :
    ∀ (l : List FVal) (b : FVal) (i : Nat), i < l.length →
      (l.scanl f b).getD (i + 1) .nan =
        f ((l.scanl f b).getD i .nan) (l.getD i .nan) := by
  intro l
  induction l with
  | nil => intro b i h; simp at h
  | cons a t ih =>
    intro b i h
    cases i with
    | zero => simp [List.scanl]
    | succ j =>
      have hj : j < t.length := by simpa using h
      simpa [List.scanl] using ih (f b a) j hj

theorem cumulative_succ (tokenCounts : List FVal) (combine : Bool)
    (i : Nat) (h : i < tokenCounts.length) :
    (cumulative tokenCounts combine).getD (i + 1) .nan =
      (if combine then
        FVal.add (FVal.add ((cumulative tokenCounts combine).getD i .nan)
          (tokenCounts.getD i .nan)) (.fin 1)
      else FVal.add ((cumulative tokenCounts combine).getD i .nan)
        (tokenCounts.getD i .nan)) := by
  cases combine <;> simp only [cumulative, if_true, if_false, Bool.false_eq_true,
    reduceIte] <;> exact scanl_getD_succ _ tokenCounts (.fin 0) i h

theorem cumulative_isTC (tokenCounts : List FVal) (combine : Bool)
    (hv : ∀ v ∈ tokenCounts, FVal.isTC v) :
    ∀ i, i < (cumulative tokenCounts combine).length →
      FVal.isTC ((cumulative tokenCounts combine).getD i .nan) := by
  intro i
  induction i with
  | zero => intro _; rw [cumulative_zero]; trivial
  | succ j ih =>
    intro h
    rw [cumulative_length] at h
    have hj : j < tokenCounts.length := by omega
    have hc := ih (by rw [cumulative_length]; omega)
    have hval : FVal.isTC (tokenCounts.getD j .nan) :=
      hv _ (getD_mem_of_lt (by omega))
    rw [cumulative_succ tokenCounts combine j hj]
    rcases hx : (cumulative tokenCounts combine).getD j .nan with _ | _ | n | _ <;>
      rw [hx] at hc <;>
      rcases hy : tokenCounts.getD j .nan with _ | _ | m | _ <;>
      rw [hy] at hval <;>
      cases combine <;> simp_all [FVal.isTC, FVal.add]

theorem cumulative_pinf_step (tokenCounts : List FVal) (combine : Bool)
    (hv : ∀ v ∈ tokenCounts, FVal.isTC v) :
    ∀ i, i + 1 < (cumulative tokenCounts combine).length →
      (cumulative tokenCounts combine).getD i .nan = .pinf →
      (cumulative tokenCounts combine).getD (i + 1) .nan = .pinf := by
  intro i h hp
  rw [cumulative_length] at h
  have hj : i < tokenCounts.length := by omega
  have hval : FVal.isTC (tokenCounts.getD i .nan) :=
    hv _ (getD_mem_of_lt (by omega))
  rw [cumulative_succ tokenCounts combine i hj, hp]
  rcases hy : tokenCounts.getD i .nan with _ | _ | m | _ <;>
    rw [hy] at hval <;> cases combine <;> simp_all [FVal.isTC, FVal.add]

theorem cumulative_pinf_upward (tokenCounts : List FVal) (combine : Bool)
    (hv : ∀ v ∈ tokenCounts, FVal.isTC v) :
    ∀ i j, i ≤ j → j < (cumulative tokenCounts combine).length →
      (cumulative tokenCounts combine).getD i .nan = .pinf →
      (cumulative tokenCounts combine).getD j .nan = .pinf := by
  intro i j hij
  induction j with
  | zero =>
    intro _ hp
    have : i = 0 := by omega
    subst this
    exact hp
  | succ k ih =>
    intro hk hp
    rcases Nat.lt_or_ge i (k + 1) with hc | hc
    · exact cumulative_pinf_step tokenCounts combine hv k hk
        (ih (by omega) (by omega) hp)
    · have : i = k + 1 := by omega
      subst this
      exact hp

/-!
## Behaviour of the boundary selection

`codeSelect` at a state whose cumulative count is `+inf` moves *backwards*
(`bisect_left` returns `current` itself, so `index = current - 1`), and at
a finite state sitting just below the `+inf` region it bounces forward to
`current + 1`; together these two facts make the merge loop cycle forever
once it enters the `+inf` region of the cumulative array.
-/

theorem codeSelect_pinf {c : List FVal} {cur len cs : Nat}
    (hlen : c.length = len + 1) (hcur : cur < len) (hcur1 : 1 ≤ cur)
    (hp : ∀ j, cur ≤ j → j < c.length → c.getD j .nan = .pinf) :
    codeSelect c cur len cs = cur - 1 := by
  have hcc : c.getD cur .nan = .pinf := hp cur (Nat.le_refl _) (by omega)
  simp only [codeSelect, bisectLeft, hcc]
  have hreq : FVal.add .pinf (.fin (cs : Int)) = .pinf := rfl
  rw [hreq]
  have h1 : cur ≤ bisectAux c .pinf (c.length - cur) cur c.length :=
    bisectAux_ge_lo _ _ _ _ _
  have h2 : bisectAux c .pinf (c.length - cur) cur c.length ≤ cur := by
    apply bisectAux_le_of_all_ge
    · intro j hj
      by_cases hjl : j < c.length
      · rw [hp j hj hjl]; rfl
      · rw [List.getD_eq_default _ _ (by omega)]; rfl
    · exact Nat.le_refl _
  have hpoint : bisectAux c .pinf (c.length - cur) cur c.length = cur := by
    omega
  rw [hpoint]
  have hidx : min (cur - 1) len = cur - 1 := by omega
  rw [hidx, if_neg (by omega)]

theorem codeSelect_fin_progress {c : List FVal} {cur len cs : Nat} {a : Int}
    (hcs : 0 < cs) (hlen : c.length = len + 1) (hcur : cur < len)
    (hfin : c.getD cur .nan = .fin a) :
    cur + 1 ≤ codeSelect c cur len cs ∧ codeSelect c cur len cs ≤ len := by
  simp only [codeSelect, bisectLeft, hfin]
  have hreq : FVal.add (.fin a) (.fin (cs : Int)) = .fin (a + cs) := rfl
  rw [hreq]
  have h1 : cur ≤ bisectAux c (.fin (a + cs)) (c.length - cur) cur c.length :=
    bisectAux_ge_lo _ _ _ _ _
  have h2 := bisectAux_le_hi c (.fin (a + cs)) (c.length - cur) cur c.length
    (by omega) (by omega)
  have h2a := h2.1
  have hne : bisectAux c (.fin (a + cs)) (c.length - cur) cur c.length ≠ cur := by
    intro heq
    have := h2.2 (by omega)
    rw [heq, hfin] at this
    simp only [FVal.lt, decide_eq_false_iff_not] at this
    omega
  constructor
  · split <;> omega
  · split <;> omega

theorem codeSelect_fin_before_pinf {c : List FVal} {cur len cs : Nat} {a : Int}
    (hcs : 0 < cs) (hlen : c.length = len + 1) (hcur : cur < len)
    (hfin : c.getD cur .nan = .fin a)
    (hp : ∀ j, cur + 1 ≤ j → j < c.length → c.getD j .nan = .pinf) :
    codeSelect c cur len cs = cur + 1 := by
  simp only [codeSelect, bisectLeft, hfin]
  have hreq : FVal.add (.fin a) (.fin (cs : Int)) = .fin (a + cs) := rfl
  rw [hreq]
  have h1 : cur ≤ bisectAux c (.fin (a + cs)) (c.length - cur) cur c.length :=
    bisectAux_ge_lo _ _ _ _ _
  have h2 := bisectAux_le_hi c (.fin (a + cs)) (c.length - cur) cur c.length
    (by omega) (by omega)
  have h2a := h2.1
  have hne : bisectAux c (.fin (a + cs)) (c.length - cur) cur c.length ≠ cur := by
    intro heq
    have := h2.2 (by omega)
    rw [heq, hfin] at this
    simp only [FVal.lt, decide_eq_false_iff_not] at this
    omega
  have h3 : bisectAux c (.fin (a + cs)) (c.length - cur) cur c.length ≤ cur + 1 := by
    apply bisectAux_le_of_all_ge
    · intro j hj
      by_cases hjl : j < c.length
      · rw [hp j hj hjl]; rfl
      · rw [List.getD_eq_default _ _ (by omega)]; rfl
    · omega
  have hpoint : bisectAux c (.fin (a + cs)) (c.length - cur) cur c.length
      = cur + 1 := by omega
  rw [hpoint]
  have hidx : min (cur + 1 - 1) len = cur := by omega
  rw [hidx, if_pos rfl]

/-- Once the merge loop's `current_index` sits strictly inside the splits
with a `+inf` cumulative count, the loop never terminates: it steps back to
`current - 1` and, from the last finite state, bounces forward again. -/
theorem mergeLoop_pinf_none {chunkSize : Nat} {combine : Bool}
    {splits : List Str} {c : List FVal}
    (hcs : 0 < chunkSize) (hlen : c.length = splits.length + 1)
    (hc0 : c.getD 0 .nan = .fin 0)
    (hval : ∀ i, i < c.length → FVal.isTC (c.getD i .nan))
    (hup : ∀ i j, i ≤ j → j < c.length → c.getD i .nan = .pinf →
      c.getD j .nan = .pinf) :
    ∀ fuel cur, cur < splits.length → c.getD cur .nan = .pinf →
      mergeLoop chunkSize combine splits c fuel cur = none := by
  intro fuel
  induction fuel using Nat.strong_induction_on with
  | _ fuel ih =>
    match fuel with
    | 0 => intro cur _ _; rfl
    | f + 1 =>
      intro cur hcur hp
      have hcur1 : 1 ≤ cur := by
        rcases Nat.eq_zero_or_pos cur with h0 | h
        · rw [h0, hc0] at hp; cases hp
        · exact h
      have hsel : codeSelect c cur splits.length chunkSize = cur - 1 :=
        codeSelect_pinf hlen hcur hcur1 (fun j hj hjl => hup cur j hj hjl hp)
      have hprev : FVal.isTC (c.getD (cur - 1) .nan) := hval _ (by omega)
      have hrec : mergeLoop chunkSize combine splits c f (cur - 1) = none := by
        rcases hx : c.getD (cur - 1) .nan with _ | _ | a | _
        · rw [hx] at hprev; cases hprev
        · rw [hx] at hprev; cases hprev
        · -- finite state just below the pinf region: it bounces back up
          match f with
          | 0 => rfl
          | g + 1 =>
            have hp1 : ∀ j, cur - 1 + 1 ≤ j → j < c.length →
                c.getD j .nan = .pinf := by
              intro j hj hjl
              exact hup cur j (by omega) hjl hp
            have hsel2 : codeSelect c (cur - 1) splits.length chunkSize
                = cur - 1 + 1 :=
              codeSelect_fin_before_pinf hcs hlen (by omega) hx hp1
            have hc1 : cur - 1 + 1 = cur := by omega
            rw [hc1] at hsel2
            have hrec2 : mergeLoop chunkSize combine splits c g cur = none :=
              ih g (by omega) cur hcur hp
            simp only [mergeLoop, if_pos (show cur - 1 < splits.length by omega),
              hsel2, hrec2]
        · -- pinf state one step down: induction hypothesis applies
          exact ih f (by omega) (cur - 1) (by omega) hx
      simp only [mergeLoop, if_pos hcur, hsel, hrec]

/-- When the merge loop does terminate, every combined token count it
returns is a Python int or `+inf` (never `nan`): the `inf - inf = nan`
delta can only arise in states from which the loop never returns. -/
theorem mergeLoop_counts_not_nan {chunkSize : Nat} {combine : Bool}
    {splits : List Str} {c : List FVal}
    (hcs : 0 < chunkSize) (hlen : c.length = splits.length + 1)
    (hc0 : c.getD 0 .nan = .fin 0)
    (hval : ∀ i, i < c.length → FVal.isTC (c.getD i .nan))
    (hup : ∀ i j, i ≤ j → j < c.length → c.getD i .nan = .pinf →
      c.getD j .nan = .pinf) :
    ∀ fuel cur ms ds,
      mergeLoop chunkSize combine splits c fuel cur = some (ms, ds) →
      ∀ d ∈ ds, d ≠ .nan := by
  intro fuel
  induction fuel with
  | zero => intro cur ms ds h; cases h
  | succ f ih =>
    intro cur ms ds h
    by_cases hcur : cur < splits.length
    · rcases hx : c.getD cur .nan with _ | _ | a | _
      · exact absurd (hval cur (by omega)) (by rw [hx]; intro hc; cases hc)
      · exact absurd (hval cur (by omega)) (by rw [hx]; intro hc; cases hc)
      · simp only [mergeLoop, if_pos hcur] at h
        cases hrec : mergeLoop chunkSize combine splits c f
            (codeSelect c cur splits.length chunkSize) with
        | none => rw [hrec] at h; cases h
        | some p =>
          obtain ⟨ms', ds'⟩ := p
          rw [hrec] at h
          simp only [Option.some.injEq, Prod.mk.injEq] at h
          obtain ⟨hms, hds⟩ := h
          intro d hd
          rw [← hds] at hd
          rcases List.mem_cons.mp hd with rfl | hd'
          · have hyval : FVal.isTC (c.getD
                (min (codeSelect c cur splits.length chunkSize) splits.length)
                .nan) := hval _ (by omega)
            rw [hx]
            revert hyval
            rcases c.getD
                (min (codeSelect c cur splits.length chunkSize) splits.length)
                .nan with _ | _ | b | _
            · intro hc; cases hc
            · intro hc; cases hc
            · intro _; simp [FVal.sub, FVal.neg, FVal.add]
            · intro _; simp [FVal.sub, FVal.neg, FVal.add]
          · exact ih _ ms' ds' hrec d hd'
      · rw [mergeLoop_pinf_none hcs hlen hc0 hval hup (f + 1) cur hcur hx] at h
        cases h
    · simp only [mergeLoop, if_neg hcur, Option.some.injEq, Prod.mk.injEq] at h
      rw [← h.2]
      intro d hd
      cases hd

/-- When the merge loop terminates with `combine_whitespace=False`,
concatenating the merged pieces reproduces the concatenation of the input
pieces from the current index on: every terminating run advances by at
least one at each step and the emitted slices tile `[cur, len)`. -/
theorem mergeLoop_join {chunkSize : Nat} {splits : List Str} {c : List FVal}
    (hcs : 0 < chunkSize) (hlen : c.length = splits.length + 1)
    (hc0 : c.getD 0 .nan = .fin 0)
    (hval : ∀ i, i < c.length → FVal.isTC (c.getD i .nan))
    (hup : ∀ i j, i ≤ j → j < c.length → c.getD i .nan = .pinf →
      c.getD j .nan = .pinf) :
    ∀ fuel cur ms ds,
      mergeLoop chunkSize false splits c fuel cur = some (ms, ds) →
      ms.flatten = (splits.drop cur).flatten := by
  intro fuel
  induction fuel with
  | zero => intro cur ms ds h; cases h
  | succ f ih =>
    intro cur ms ds h
    by_cases hcur : cur < splits.length
    · rcases hx : c.getD cur .nan with _ | _ | a | _
      · exact absurd (hval cur (by omega)) (by rw [hx]; intro hc; cases hc)
      · exact absurd (hval cur (by omega)) (by rw [hx]; intro hc; cases hc)
      · have hprog := @codeSelect_fin_progress c cur splits.length chunkSize
          a hcs hlen hcur hx
        simp only [mergeLoop, if_pos hcur] at h
        cases hrec : mergeLoop chunkSize false splits c f
            (codeSelect c cur splits.length chunkSize) with
        | none => rw [hrec] at h; cases h
        | some p =>
          obtain ⟨ms', ds'⟩ := p
          rw [hrec] at h
          simp only [Option.some.injEq, Prod.mk.injEq] at h
          obtain ⟨hms, _⟩ := h
          rw [← hms]
          have hih := ih _ ms' ds' hrec
          simp only [List.flatten_cons, hih]
          have hdecomp : (splits.drop cur).take
                (codeSelect c cur splits.length chunkSize - cur) ++
              splits.drop (codeSelect c cur splits.length chunkSize)
              = splits.drop cur := by
            have hdd : (splits.drop cur).drop
                (codeSelect c cur splits.length chunkSize - cur)
                = splits.drop (codeSelect c cur splits.length chunkSize) := by
              rw [List.drop_drop]
              congr 1
              omega
            rw [← hdd, List.take_append_drop]
          have := congrArg List.flatten hdecomp
          rw [List.flatten_append] at this
          simpa [joinPieces, sliceList] using this
      · rw [mergeLoop_pinf_none hcs hlen hc0 hval hup (f + 1) cur hcur hx] at h
        cases h
    · simp only [mergeLoop, if_neg hcur, Option.some.injEq, Prod.mk.injEq] at h
      rw [← h.1, List.drop_eq_nil_of_le (by omega)]

theorem FVal.isTC_of_isNNTC {v : FVal} (h : FVal.isNNTC v) : FVal.isTC v := by
  cases v <;> simp_all [FVal.isTC, FVal.isNNTC]

theorem cumulative_mono_step (tokenCounts : List FVal) (combine : Bool)
    (hv : ∀ v ∈ tokenCounts, FVal.isNNTC v) (i : Nat)
    (h : i + 1 < (cumulative tokenCounts combine).length) :
    FVal.le ((cumulative tokenCounts combine).getD i .nan)
      ((cumulative tokenCounts combine).getD (i + 1) .nan) = true := by
  rw [cumulative_length] at h
  have hi : i < tokenCounts.length := by omega
  have hci : FVal.isTC ((cumulative tokenCounts combine).getD i .nan) :=
    cumulative_isTC tokenCounts combine
      (fun v hv2 => FVal.isTC_of_isNNTC (hv v hv2)) i
      (by rw [cumulative_length]; omega)
  have hyv : FVal.isNNTC (tokenCounts.getD i .nan) :=
    hv _ (getD_mem_of_lt (by omega))
  rw [cumulative_succ tokenCounts combine i hi]
  rcases hx : (cumulative tokenCounts combine).getD i .nan with _ | _ | a | _ <;>
    rw [hx] at hci <;>
    rcases hy : tokenCounts.getD i .nan with _ | _ | b | _ <;>
    rw [hy] at hyv <;>
    cases combine <;>
    simp_all [FVal.isTC, FVal.isNNTC, FVal.le, FVal.add] <;> omega

theorem cumulative_mono (tokenCounts : List FVal) (combine : Bool)
    (hv : ∀ v ∈ tokenCounts, FVal.isNNTC v) :
    ∀ i j, i ≤ j → j < (cumulative tokenCounts combine).length →
      FVal.le ((cumulative tokenCounts combine).getD i .nan)
        ((cumulative tokenCounts combine).getD j .nan) = true := by
  intro i j hij
  induction j with
  | zero =>
    intro _
    have : i = 0 := by omega
    subst this
    rw [cumulative_zero]
    rfl
  | succ k ih =>
    intro hk
    rcases Nat.lt_or_ge i (k + 1) with hc | hc
    · exact FVal.le_trans (ih (by omega) (by omega))
        (cumulative_mono_step tokenCounts combine hv k hk)
    · have : i = k + 1 := by omega
      subst this
      have hval : FVal.isTC ((cumulative tokenCounts combine).getD (k + 1) .nan) :=
        cumulative_isTC tokenCounts combine
          (fun v hv2 => FVal.isTC_of_isNNTC (hv v hv2)) (k + 1) hk
      rcases hx : (cumulative tokenCounts combine).getD (k + 1) .nan
          with _ | _ | a | _ <;> rw [hx] at hval <;>
        simp_all [FVal.isTC, FVal.le]

/-!
## Spec-worded greedy merges

`leSelect`/`leGreedyMerge` transcribe the claim's own wording: "find via a
lower-bound search the farthest index whose cumulative sum *does not
exceed* `current + chunk_size`".  `strictSelect`/`strictGreedyMerge`
transcribe the amended wording in which the farthest index kept is the one
whose cumulative sum is *strictly below* `current + chunk_size`.  Both
reuse the source's cumulative array, forced-advance rule, piece joining
and delta recording, so that the only difference from `codeSelect` is the
boundary rule being compared.
-/

/-- The claim's selection as stated: farthest `i ≤ len` with `c[i] <= cur + size`. -/
def leSelect (c : List FVal) (current len chunkSize : Nat) : Nat :=
  let required := FVal.add (c.getD current .nan) (.fin chunkSize)
  let far := Nat.findGreatest
    (fun i => FVal.le (c.getD i .nan) required = true) len
  if far = current then current + 1 else far

/-- The amended selection: farthest `i ≤ len` with `c[i] < cur + size`. -/
def strictSelect (c : List FVal) (current len chunkSize : Nat) : Nat :=
  let required := FVal.add (c.getD current .nan) (.fin chunkSize)
  let far := Nat.findGreatest
    (fun i => FVal.lt (c.getD i .nan) required = true) len
  if far = current then current + 1 else far

/-- The merge loop driven by `leSelect` (the claim's words, as stated). -/
def leLoop (chunkSize : Nat) (combine : Bool) (splits : List Str)
    (c : List FVal) : Nat → Nat → Option (List Str × List FVal)
  | 0, _ => none
  | fuel + 1, current =>
    if current < splits.length then
      let idx := leSelect c current splits.length chunkSize
      let piece := joinPieces combine (sliceList splits current idx)
      let delta := FVal.sub (c.getD (min idx splits.length) .nan)
        (c.getD current .nan)
      match leLoop chunkSize combine splits c fuel idx with
      | none => none
      | some (ms, ds) => some (piece :: ms, delta :: ds)
    else some ([], [])

/-- The merge loop driven by `strictSelect` (the amended claim). -/
def strictLoop (chunkSize : Nat) (combine : Bool) (splits : List Str)
    (c : List FVal) : Nat → Nat → Option (List Str × List FVal)
  | 0, _ => none
  | fuel + 1, current =>
    if current < splits.length then
      let idx := strictSelect c current splits.length chunkSize
      let piece := joinPieces combine (sliceList splits current idx)
      let delta := FVal.sub (c.getD (min idx splits.length) .nan)
        (c.getD current .nan)
      match strictLoop chunkSize combine splits c fuel idx with
      | none => none
      | some (ms, ds) => some (piece :: ms, delta :: ds)
    else some ([], [])

/-- The merge procedure described by the claim, with its `<=` boundary rule. -/
def leGreedyMerge (chunkSize fuel : Nat) (splits : List Str)
    (tokenCounts : List FVal) (combine : Bool) :
    Option (List Str × List FVal) :=
  if splits = [] ∨ tokenCounts = [] then some ([], [])
  else leLoop chunkSize combine splits (cumulative tokenCounts combine) fuel 0

/-- The merge procedure of the amended claim, with the `<` boundary rule. -/
def strictGreedyMerge (chunkSize fuel : Nat) (splits : List Str)
    (tokenCounts : List FVal) (combine : Bool) :
    Option (List Str × List FVal) :=
  if splits = [] ∨ tokenCounts = [] then some ([], [])
  else strictLoop chunkSize combine splits (cumulative tokenCounts combine)
    fuel 0

/-- At a finite state over a sorted cumulative array, the code's
`bisect_left`-based selection picks exactly the farthest index whose
cumulative sum is *strictly below* `current + chunk_size` (capped at
`len`), i.e. the amended spec selection. -/
theorem codeSelect_eq_strictSelect {c : List FVal} {cur len cs : Nat} {a : Int}
    (hcs : 0 < cs) (hlen : c.length = len + 1) (hcur : cur < len)
    (hfin : c.getD cur .nan = .fin a)
    (hmono : ∀ i j, i ≤ j → j < c.length →
      FVal.le (c.getD i .nan) (c.getD j .nan) = true) :
    codeSelect c cur len cs = strictSelect c cur len cs := by
  have hdc : ∀ i j : Nat, i ≤ j →
      FVal.lt (c.getD j .nan) (.fin (a + cs)) = true →
      FVal.lt (c.getD i .nan) (.fin (a + cs)) = true := by
    intro i j hij hj
    by_cases hjl : j < c.length
    · exact FVal.lt_of_le_of_lt (hmono i j hij hjl) hj
    · rw [List.getD_eq_default _ _ (by omega)] at hj
      cases hj
  have hQcur : FVal.lt (c.getD cur .nan) (.fin (a + cs)) = true := by
    rw [hfin]
    simp only [FVal.lt, decide_eq_true_eq]
    omega
  simp only [codeSelect, strictSelect, bisectLeft, hfin]
  have hreq : FVal.add (.fin a) (.fin (cs : Int)) = .fin (a + cs) := rfl
  rw [hreq]
  have h1 : cur ≤ bisectAux c (.fin (a + cs)) (c.length - cur) cur c.length :=
    bisectAux_ge_lo _ _ _ _ _
  have h2 := bisectAux_le_hi c (.fin (a + cs)) (c.length - cur) cur c.length
    (by omega) (by omega)
  have h2a := h2.1
  have hne : bisectAux c (.fin (a + cs)) (c.length - cur) cur c.length ≠ cur := by
    intro heq
    have := h2.2 (by omega)
    rw [heq] at this
    rw [this] at hQcur
    cases hQcur
  have hbelow : ∀ j, j < bisectAux c (.fin (a + cs)) (c.length - cur) cur c.length →
      FVal.lt (c.getD j .nan) (.fin (a + cs)) = true := by
    intro j hj
    rcases Nat.lt_or_ge j cur with hjc | hjc
    · exact hdc j cur (by omega) hQcur
    · exact bisectAux_below c (.fin (a + cs)) hdc _ cur c.length j hjc hj
  rcases Nat.lt_or_ge (bisectAux c (.fin (a + cs)) (c.length - cur) cur c.length)
      c.length with hpl | hpl
  · -- point <= len : far = point - 1
    have hnQ := h2.2 hpl
    have hfar : Nat.findGreatest
        (fun i => FVal.lt (c.getD i .nan) (.fin (a + cs)) = true) len
        = bisectAux c (.fin (a + cs)) (c.length - cur) cur c.length - 1 := by
      have hge : bisectAux c (.fin (a + cs)) (c.length - cur) cur c.length - 1
          ≤ Nat.findGreatest
            (fun i => FVal.lt (c.getD i .nan) (.fin (a + cs)) = true) len :=
        Nat.le_findGreatest (by omega) (hbelow _ (by omega))
      have hle2 : Nat.findGreatest
          (fun i => FVal.lt (c.getD i .nan) (.fin (a + cs)) = true) len
          ≤ bisectAux c (.fin (a + cs)) (c.length - cur) cur c.length - 1 := by
        by_contra hcon
        have hQfar : FVal.lt (c.getD (Nat.findGreatest
            (fun i => FVal.lt (c.getD i .nan) (.fin (a + cs)) = true) len)
            .nan) (.fin (a + cs)) = true :=
          Nat.findGreatest_spec (P := fun i =>
            FVal.lt (c.getD i .nan) (.fin (a + cs)) = true)
            (m := bisectAux c (.fin (a + cs)) (c.length - cur) cur c.length - 1)
            (by omega) (hbelow _ (by omega))
        have hQpoint := hdc
          (bisectAux c (.fin (a + cs)) (c.length - cur) cur c.length)
          (Nat.findGreatest
            (fun i => FVal.lt (c.getD i .nan) (.fin (a + cs)) = true) len)
          (by omega) hQfar
        rw [hnQ] at hQpoint
        cases hQpoint
      omega
    rw [hfar]
    have hmin : min (bisectAux c (.fin (a + cs)) (c.length - cur) cur c.length - 1)
        len = bisectAux c (.fin (a + cs)) (c.length - cur) cur c.length - 1 := by
      omega
    rw [hmin]
  · -- point = len + 1 : far = len
    have hpoint : bisectAux c (.fin (a + cs)) (c.length - cur) cur c.length
        = len + 1 := by omega
    have hfar : Nat.findGreatest
        (fun i => FVal.lt (c.getD i .nan) (.fin (a + cs)) = true) len = len := by
      have hge : len ≤ Nat.findGreatest
          (fun i => FVal.lt (c.getD i .nan) (.fin (a + cs)) = true) len :=
        Nat.le_findGreatest (Nat.le_refl _) (hbelow len (by omega))
      have := Nat.findGreatest_le (P := fun i =>
        FVal.lt (c.getD i .nan) (.fin (a + cs)) = true) len
      omega
    rw [hfar, hpoint]
    have hmin : min (len + 1 - 1) len = len := by omega
    rw [hmin]

/-- Whenever the code's merge loop terminates (over a sorted cumulative
array of genuine token counts), it computes exactly the strict-boundary
greedy merge of the amended claim. -/
theorem mergeLoop_eq_strictLoop {chunkSize : Nat} {combine : Bool}
    {splits : List Str} {c : List FVal}
    (hcs : 0 < chunkSize) (hlen : c.length = splits.length + 1)
    (hc0 : c.getD 0 .nan = .fin 0)
    (hval : ∀ i, i < c.length → FVal.isTC (c.getD i .nan))
    (hup : ∀ i j, i ≤ j → j < c.length → c.getD i .nan = .pinf →
      c.getD j .nan = .pinf)
    (hmono : ∀ i j, i ≤ j → j < c.length →
      FVal.le (c.getD i .nan) (c.getD j .nan) = true) :
    ∀ fuel cur r, mergeLoop chunkSize combine splits c fuel cur = some r →
      strictLoop chunkSize combine splits c fuel cur = some r := by
  intro fuel
  induction fuel with
  | zero => intro cur r h; cases h
  | succ f ih =>
    intro cur r h
    by_cases hcur : cur < splits.length
    · rcases hx : c.getD cur .nan with _ | _ | a | _
      · exact absurd (hval cur (by omega)) (by rw [hx]; intro hc; cases hc)
      · exact absurd (hval cur (by omega)) (by rw [hx]; intro hc; cases hc)
      · have hsel : codeSelect c cur splits.length chunkSize
            = strictSelect c cur splits.length chunkSize :=
          codeSelect_eq_strictSelect hcs hlen hcur hx hmono
        simp only [mergeLoop, if_pos hcur] at h
        simp only [strictLoop, if_pos hcur, ← hsel]
        cases hrec : mergeLoop chunkSize combine splits c f
            (codeSelect c cur splits.length chunkSize) with
        | none => rw [hrec] at h; cases h
        | some p =>
          rw [hrec] at h
          rw [ih _ p hrec]
          exact h
      · rw [mergeLoop_pinf_none hcs hlen hc0 hval hup (f + 1) cur hcur hx] at h
        cases h
    · simp only [mergeLoop, if_neg hcur] at h
      simp only [strictLoop, if_neg hcur]
      exact h

/-!
## Tokenizer interface, rule levels, splitter, estimator, materializer
-/

/-- The external tokenizer/token-counter service (spec §1: out of scope,
"specified only by the interface the core needs"). -/
structure Tokenizer where
  countTokens : Str → Nat
  encode : Str → List Nat
  decodeBatch : List (List Nat) → List Str

/-- Modelled from the spec: the `include_delim` placement policy of
`RecursiveLevel` (`chonkie.types.recurisve` is not part of the shown
source); spec §3: "delimiter attached to the preceding piece, to the
following piece, or discarded". -/
inductive DelimPolicy where
  | prev
  | next
  | drop
deriving DecidableEq

/-- Modelled from the spec: a `RecursiveLevel` (`chonkie.types.recurisve`
is not part of the shown source); spec §3: "Exactly one mode is active per
rule instance" — whitespace mode, delimiter mode with a placement policy,
or token-window mode (no delimiters, no whitespace). -/
inductive RLevel where
  | whitespace
  | delimiters (delims : List Str) (policy : DelimPolicy)
  | tokenWindow
deriving DecidableEq

/-- The `return_type` constructor argument (validated to be one of the
two literals `texts` / `chunks`). -/
inductive ReturnType where
  | texts
  | chunks
deriving DecidableEq

/-- The constructor-validated configuration of a `RecursiveChunker`
(`chunk_size > 0` and `min_characters_per_chunk > 0` are enforced by
`__init__` and carried as hypotheses by the theorems below). -/
structure ChunkerCfg where
  chunkSize : Nat
  minCharsPerChunk : Nat
  returnType : ReturnType
  rules : List RLevel

/-- Model of `_estimate_token_count` (lines 90-97): if
`max(1, len(text) // 6) > chunk_size` return `float("inf")` without
consulting the tokenizer, else return the exact
`tokenizer.count_tokens(text)`.  The `lru_cache` memoization is
value-transparent for a pure function and is not modelled. -/
def estimateTokenCount (tok : Tokenizer) (cfg : ChunkerCfg) (text : Str) :
    FVal :=
  if cfg.chunkSize < max 1 (text.length / 6) then .pinf
  else .fin (tok.countTokens text)

/-- Fuelled unrolling of Python `str.replace` for a non-empty pattern;
each step consumes at least one character, so fuel `s.length` runs it to
completion. -/
def replaceAux (pat rep : Str) : Nat → Str → Str
  | _, [] => []
  | 0, s => s
  | f + 1, ch :: rest =>
    if pat.isPrefixOf (ch :: rest) then
      rep ++ replaceAux pat rep f ((ch :: rest).drop pat.length)
    else ch :: replaceAux pat rep f rest

/-- Python `s.replace(pat, rep)`: leftmost non-overlapping replacement;
an empty pattern inserts `rep` at every position, matching CPython. -/
def replaceSub (s pat rep : Str) : Str :=
  if pat = [] then rep ++ (s.map (fun ch => ch :: rep)).flatten
  else replaceAux pat rep s.length s

/-- Fuelled unrolling of Python `str.split(sep)` for a non-empty
separator; again fuel `s.length` suffices. -/
def splitOnSubAux (sep : Str) : Nat → Str → List Str
  | _, [] => [[]]
  | 0, s => [s]
  | f + 1, ch :: rest =>
    if sep.isPrefixOf (ch :: rest) then
      [] :: splitOnSubAux sep f ((ch :: rest).drop sep.length)
    else
      match splitOnSubAux sep f rest with
      | [] => [[ch]]
      | p :: ps => (ch :: p) :: ps

/-- Python `s.split(sep)` for a non-empty separator string. -/
def splitOnSub (s sep : Str) : List Str := splitOnSubAux sep s.length s

/-- The chunker's internal separator marker. -/
def internalSepStr : String := "<=CHONKIE_INTERNAL_SEP=>"

/-- The internal separator as a code-point sequence. -/
def internalSep : Str := internalSepStr.toList

/-- Lines 110-118: rewrite each delimiter occurrence according to the
placement policy, in the delimiters' declared order. -/
def applyDelims (policy : DelimPolicy) (delims : List Str) (text : Str) :
    Str :=
  match policy with
  | .prev => delims.foldl (fun t d => replaceSub t d (d ++ internalSep)) text
  | .next => delims.foldl (fun t d => replaceSub t d (internalSep ++ d)) text
  | .drop => delims.foldl (fun t d => replaceSub t d internalSep) text

/-- One iteration of the short-split pre-merge loop (lines 123-137):
absorb a short split into `current`, flush `current` when joined with a
long split or when it reaches the threshold. -/
def preMergeStep (minChars : Nat) (st : Str × List Str) (split : Str) :
    Str × List Str :=
  let br :=
    if split.length < minChars then (st.1 ++ split, st.2)
    else if st.1 ≠ [] then (([] : Str), st.2 ++ [st.1 ++ split])
    else (([] : Str), st.2 ++ [split])
  if minChars ≤ br.1.length then (([] : Str), br.2 ++ [br.1]) else br

/-- The delimiter-mode pre-merge pass (lines 122-142), including the
final `if current: merged.append(current)` flush. -/
def preMerge (minChars : Nat) (splits : List Str) : List Str :=
  let st := splits.foldl (preMergeStep minChars) (([] : Str), [])
  if st.1 ≠ [] then st.2 ++ [st.1] else st.2

/-- Model of `[encoded[i : i + chunk_size] for i in range(0, len(encoded), chunk_size)]`. -/
def windowSlices (l : List Nat) (size : Nat) : List (List Nat) :=
  (List.range ((l.length + size - 1) / size)).map
    fun i => (l.drop (i * size)).take size

/-- Model of `_split` (lines 99-154), dispatched on the rule's mode. -/
def splitText (tok : Tokenizer) (cfg : ChunkerCfg) (rule : RLevel)
    (text : Str) : List Str :=
  match rule with
  | .whitespace => text.splitOn ' '
  | .delimiters delims policy =>
    let t := applyDelims policy delims text
    let splits := (splitOnSub t internalSep).filter (fun s => s ≠ [])
    preMerge cfg.minCharsPerChunk splits
  | .tokenWindow =>
    tok.decodeBatch (windowSlices (tok.encode text) cfg.chunkSize)

/-- Python `haystack.index(pat)`: index of the first occurrence, `none`
when absent (`ValueError` in Python, caught by `_convert_to_chunk`). -/
def subIndex : Str → Str → Option Nat
  | [], pat => if pat.isPrefixOf [] then some 0 else none
  | ch :: t, pat =>
    if pat.isPrefixOf (ch :: t) then some 0
    else (subIndex t pat).map (fun i => i + 1)

/-- Predicate: `pat` occurs in `full` at position `pos`. -/
def occursAt (full : Str) (pos : Nat) (pat : Str) : Prop :=
  (full.drop pos).take pat.length = pat

instance (full : Str) (pos : Nat) (pat : Str) : Decidable (occursAt full pos pat) := by
  unfold occursAt
  infer_instance

/-- A produced chunk: `{text, start_index, end_index, token_count, level}`. -/
structure RChunk where
  text : Str
  startIndex : Nat
  endIndex : Nat
  tokenCount : FVal
  level : Nat
deriving DecidableEq

/-- Model of `_convert_to_chunk` (lines 156-186): locate `text` in
`full_text[last_chunk_end_index:]`; on failure fall back to `(0, 0)` (the
printed diagnostic is output-only and not modelled). -/
def convertToChunk (text : Str) (tokenCount : FVal) (level : Nat)
    (fullText : Option Str) (lastChunkEndIndex : Nat) : RChunk :=
  let full := fullText.getD text
  match subIndex (full.drop lastChunkEndIndex) text with
  | some i =>
    ⟨text, lastChunkEndIndex + i, lastChunkEndIndex + i + text.length,
      tokenCount, level⟩
  | none => ⟨text, 0, 0, tokenCount, level⟩

/-- Modelled from the spec: `BaseChunker._get_token_count` (used by the
rules-exhausted terminal path, line 269) is not part of the shown source;
spec §4.5 wraps the entire text as one chunk, whose token count is the
exact tokenizer count. -/
def getTokenCount (tok : Tokenizer) (text : Str) : FVal :=
  .fin (tok.countTokens text)

/-!
## The recursive driver `_chunk_helper` (lines 256-324)

The driver is modelled as a single fuelled transition function over two
job shapes: `descend` is one `_chunk_helper` invocation, `loopMerged` is
the `for split, token_count in zip(merged, combined_token_counts)` loop
over the remaining items.  `mfuel` is the fuel handed to each
`_merge_splits` call (whose loop can genuinely diverge), `fuel` bounds
the driver's own recursion; `none` means the computation has not finished
within the given fuel.
-/

/-- One element of the driver's result: a raw text (return_type="texts")
or a chunk (return_type="chunks"). -/
inductive Out where
  | text (s : Str)
  | chunk (c : RChunk)
deriving DecidableEq

/-- A pending unit of driver work. -/
inductive Job where
  | descend (text : Str) (level : Nat) (fullText : Option Str)
  | loopMerged (level : Nat) (full chunkFull : Str)
    (items : List (Str × FVal))

/-- The driver: `_chunk_helper` plus its merged-spans loop. -/
def chunkRun (tok : Tokenizer) (cfg : ChunkerCfg) (mfuel : Nat) :
    Nat → Job → Option (Except String (List Out))
  | 0, _ => none
  | fuel + 1, .descend text level fullText =>
    if text = [] then some (.ok [])
    else if cfg.rules.length ≤ level then
      match cfg.returnType with
      | .texts => some (.ok [.text text])
      | .chunks => some (.ok [.chunk
          (convertToChunk text (getTokenCount tok text) level fullText 0)])
    else
      let full := fullText.getD text
      let currRule := cfg.rules.getD level .tokenWindow
      let splits := splitText tok cfg currRule text
      let tokenCounts := splits.map (estimateTokenCount tok cfg)
      let mergedRes : Option (Except String (List Str × List FVal)) :=
        match currRule with
        | .tokenWindow => some (.ok (splits, tokenCounts))
        | .whitespace =>
          mergeSplits cfg.chunkSize mfuel splits tokenCounts true
        | .delimiters _ _ =>
          mergeSplits cfg.chunkSize mfuel splits tokenCounts false
      match mergedRes with
      | none => none
      | some (.error e) => some (.error e)
      | some (.ok (merged, combinedCounts)) =>
        let noDelim : Bool :=
          match currRule with
          | .tokenWindow => true
          | _ => false
        let chunkFull := if noDelim then merged.flatten else full
        chunkRun tok cfg mfuel fuel
          (.loopMerged level full chunkFull (merged.zip combinedCounts))
  | fuel + 1, .loopMerged level full chunkFull items =>
    match items with
    | [] => some (.ok [])
    | (split, tokenCount) :: rest =>
      if FVal.gt tokenCount (.fin cfg.chunkSize) then
        match chunkRun tok cfg mfuel fuel
            (.descend split (level + 1) (some full)) with
        | none => none
        | some (.error e) => some (.error e)
        | some (.ok a) =>
          match chunkRun tok cfg mfuel fuel
              (.loopMerged level full chunkFull rest) with
          | none => none
          | some (.error e) => some (.error e)
          | some (.ok b) => some (.ok (a ++ b))
      else
        let item : Out :=
          match cfg.returnType with
          | .chunks =>
            .chunk (convertToChunk split tokenCount level (some chunkFull) 0)
          | .texts => .text split
        match chunkRun tok cfg mfuel fuel
            (.loopMerged level full chunkFull rest) with
        | none => none
        | some (.error e) => some (.error e)
        | some (.ok b) => some (.ok (item :: b))

/-- The public operation `chunk(text)` (line 323-324). -/
def chunk (tok : Tokenizer) (cfg : ChunkerCfg) (mfuel fuel : Nat)
    (text : Str) : Option (Except String (List Out)) :=
  chunkRun tok cfg mfuel fuel (.descend text 0 (some text))

/-- A concrete character-level tokenizer for the concrete runs below. -/
def charTok : Tokenizer where
  countTokens s := s.length
  encode s := s.map Char.toNat
  decodeBatch l := l.map (fun ts => ts.map (fun n => Char.ofNat n))

deriving instance DecidableEq for Except

/-!
## Substring search facts
-/

theorem occursAt_of_isPrefixOf {h p : Str} (hp : p.isPrefixOf h = true) :
    occursAt h 0 p := by
  unfold occursAt
  rw [List.drop_zero]
  have h1 := List.isPrefixOf_iff_prefix.mp hp
  have h2 := List.prefix_iff_eq_take.mp h1
  exact h2.symm

theorem isPrefixOf_of_occursAt_zero {h p : Str} (ho : occursAt h 0 p) :
    p.isPrefixOf h = true := by
  unfold occursAt at ho
  rw [List.drop_zero] at ho
  apply List.isPrefixOf_iff_prefix.mpr
  rw [← ho]
  exact List.take_prefix _ _

theorem occursAt_cons_succ {ch : Char} {t p : Str} {i : Nat} :
    occursAt (ch :: t) (i + 1) p ↔ occursAt t i p := by
  unfold occursAt
  rw [List.drop_succ_cons]

theorem subIndex_some_occurs {p : Str} :
    ∀ {h : Str} {i : Nat}, subIndex h p = some i → occursAt h i p := by
  intro h
  induction h with
  | nil =>
    intro i hs
    unfold subIndex at hs
    split at hs
    · rename_i hpre
      cases hs
      exact occursAt_of_isPrefixOf hpre
    · cases hs
  | cons ch t ih =>
    intro i hs
    unfold subIndex at hs
    split at hs
    · rename_i hpre
      cases hs
      exact occursAt_of_isPrefixOf hpre
    · rcases Option.map_eq_some'.mp hs with ⟨j, hj, hij⟩
      subst hij
      exact occursAt_cons_succ.mpr (ih hj)

theorem subIndex_none_not_occurs {p : Str} :
    ∀ {h : Str}, subIndex h p = none → ∀ i, ¬ occursAt h i p := by
  intro h
  induction h with
  | nil =>
    intro hs i ho
    unfold subIndex at hs
    split at hs
    · cases hs
    · rename_i hpre
      have hp0 : p = [] := by
        unfold occursAt at ho
        simpa using ho.symm
      subst hp0
      simp [List.isPrefixOf] at hpre
  | cons ch t ih =>
    intro hs i ho
    unfold subIndex at hs
    split at hs
    · cases hs
    · rw [Option.map_eq_none'] at hs
      cases i with
      | zero => exact absurd (isPrefixOf_of_occursAt_zero ho) (by simp_all)
      | succ m => exact ih hs m (occursAt_cons_succ.mp ho)

theorem subIndex_some_least {p : Str} :
    ∀ {h : Str} {i : Nat}, subIndex h p = some i →
      ∀ j, j < i → ¬ occursAt h j p := by
  intro h
  induction h with
  | nil =>
    intro i hs j hj
    unfold subIndex at hs
    split at hs
    · cases hs
      omega
    · cases hs
  | cons ch t ih =>
    intro i hs j hj
    unfold subIndex at hs
    split at hs
    · cases hs
      omega
    · rename_i hpre
      rcases Option.map_eq_some'.mp hs with ⟨k, hk, hik⟩
      subst hik
      cases j with
      | zero =>
        intro ho
        exact absurd (isPrefixOf_of_occursAt_zero ho) (by simp_all)
      | succ m =>
        intro ho
        exact ih hk m (by omega) (occursAt_cons_succ.mp ho)

theorem convertToChunk_found {text : Str} {tokenCount : FVal} {level : Nat}
    {fullText : Option Str} {last i : Nat}
    (hs : subIndex ((fullText.getD text).drop last) text = some i) :
    convertToChunk text tokenCount level fullText last
      = ⟨text, last + i, last + i + text.length, tokenCount, level⟩ := by
  simp only [convertToChunk, hs]

theorem convertToChunk_notfound {text : Str} {tokenCount : FVal} {level : Nat}
    {fullText : Option Str} {last : Nat}
    (hs : subIndex ((fullText.getD text).drop last) text = none) :
    convertToChunk text tokenCount level fullText last
      = ⟨text, 0, 0, tokenCount, level⟩ := by
  simp only [convertToChunk, hs]

theorem occursAt_drop {full p : Str} {last i : Nat} :
    occursAt (full.drop last) i p ↔ occursAt full (last + i) p := by
  unfold occursAt
  rw [List.drop_drop]

/-- C7: for every text, the estimator returns the overflow sentinel
without consulting the exact tokenizer precisely when
`max(1, len(text) // 6) > chunk_size`, and otherwise returns exactly the
tokenizer's `count_tokens(text)`. -/
theorem c7_estimator_sentinel_iff (tok : Tokenizer) (cfg : ChunkerCfg)
    (text : Str) :
    (estimateTokenCount tok cfg text = .pinf ↔
      cfg.chunkSize < max 1 (text.length / 6)) ∧
    (¬ cfg.chunkSize < max 1 (text.length / 6) →
      estimateTokenCount tok cfg text = .fin (tok.countTokens text)) := by
  unfold estimateTokenCount
  by_cases h : cfg.chunkSize < max 1 (text.length / 6)
  · simp [h]
  · simp [h]

/-- Witness for C7: an 18-character text overflows a chunk size of 2; a
2-character text is counted exactly by the tokenizer. -/
theorem c7_estimator_witness :
    estimateTokenCount charTok ⟨2, 1, .chunks, []⟩
      (("aaaaaaaaaaaaaaaaaa").toList) = .pinf ∧
    estimateTokenCount charTok ⟨2, 1, .chunks, []⟩ (("ab").toList)
      = .fin 2 := by
  constructor
  · exact (c7_estimator_sentinel_iff charTok ⟨2, 1, .chunks, []⟩ _).1.mpr
      (by decide)
  · exact ((c7_estimator_sentinel_iff charTok ⟨2, 1, .chunks, []⟩
      (("ab").toList)).2 (by decide)).trans (by decide)

/-- C6: chunk materialization is total (never raises).  If the chunk text
occurs in the full text at or after the search offset, the returned
offsets are exact (`full_text[start:end] == text`, so
`end - start = len(text)`); otherwise both offsets fall back to `0` (the
diagnostic print is output-only) and the chunk is still returned. -/
theorem c6_materializer_total (text : Str) (tokenCount : FVal) (level : Nat)
    (fullText : Option Str) (last : Nat) :
    ((∃ p, last ≤ p ∧ occursAt (fullText.getD text) p text) →
      occursAt (fullText.getD text)
          (convertToChunk text tokenCount level fullText last).startIndex
          text ∧
      (convertToChunk text tokenCount level fullText last).endIndex
        = (convertToChunk text tokenCount level fullText last).startIndex
          + text.length ∧
      last ≤ (convertToChunk text tokenCount level fullText last).startIndex) ∧
    ((∀ p, last ≤ p → ¬ occursAt (fullText.getD text) p text) →
      (convertToChunk text tokenCount level fullText last).startIndex = 0 ∧
      (convertToChunk text tokenCount level fullText last).endIndex = 0) ∧
    (convertToChunk text tokenCount level fullText last).text = text ∧
    (convertToChunk text tokenCount level fullText last).tokenCount
      = tokenCount ∧
    (convertToChunk text tokenCount level fullText last).level = level := by
  cases hs : subIndex ((fullText.getD text).drop last) text with
  | some i =>
    rw [convertToChunk_found hs]
    refine ⟨fun _ => ?_, fun hno => ?_, rfl, rfl, rfl⟩
    · have ho := occursAt_drop.mp (subIndex_some_occurs hs)
      exact ⟨ho, rfl, Nat.le_add_right last i⟩
    · have ho := occursAt_drop.mp (subIndex_some_occurs hs)
      exact absurd ho (hno (last + i) (by omega))
  | none =>
    rw [convertToChunk_notfound hs]
    refine ⟨fun hex => ?_, fun _ => ⟨rfl, rfl⟩, rfl, rfl, rfl⟩
    · rcases hex with ⟨p, hp, ho⟩
      have := subIndex_none_not_occurs hs (p - last)
      rw [occursAt_drop] at this
      have hpl : last + (p - last) = p := by omega
      rw [hpl] at this
      exact absurd ho this

/-- Witness for C6: resolving `"bc"` inside `"abcbc"` from offset 2 finds
the second occurrence exactly, and a text absent from the full text falls
back to `(0, 0)`. -/
theorem c6_materializer_witness :
    occursAt (("abcbc").toList)
      (convertToChunk (("bc").toList) (.fin 2) 0 (some (("abcbc").toList))
        2).startIndex (("bc").toList) ∧
    2 ≤ (convertToChunk (("bc").toList) (.fin 2) 0 (some (("abcbc").toList))
        2).startIndex ∧
    (convertToChunk (("zz").toList) (.fin 2) 0 (some (("abcbc").toList))
        0).startIndex = 0 := by
  refine ⟨?_, ?_, ?_⟩
  · exact ((c6_materializer_total (("bc").toList) (.fin 2) 0
      (some (("abcbc").toList)) 2).1 ⟨3, by decide, by decide⟩).1
  · exact ((c6_materializer_total (("bc").toList) (.fin 2) 0
      (some (("abcbc").toList)) 2).1 ⟨3, by decide, by decide⟩).2.2
  · exact ((c6_materializer_total (("zz").toList) (.fin 2) 0
      (some (("abcbc").toList)) 0).2.1
      (fun p _ => subIndex_none_not_occurs (by decide) p)).1

/-- C3 counterexample: an empty `splits` paired with a non-empty
`token_counts` has mismatched lengths, yet `_merge_splits` returns
`([], [])` without raising — the emptiness early-return (line 196) runs
before the length check (line 200). -/
theorem c3_counterexample :
    mergeSplits 5 3 ([] : List Str) [.fin 1] false = some (.ok ([], [])) ∧
    ([] : List Str).length ≠ [FVal.fin 1].length := by
  exact ⟨by decide, by decide⟩

/-- C3 amended: for every pair of *non-empty* lists with mismatched
lengths, `_merge_splits` raises the `ValueError` immediately, producing
no partial output (the error carries no pieces); when either list is
empty the early return yields `([], [])` without the length check. -/
theorem c3_mismatch_error (chunkSize fuel : Nat) (splits : List Str)
    (tokenCounts : List FVal) (combine : Bool)
    (h1 : splits ≠ []) (h2 : tokenCounts ≠ [])
    (h3 : splits.length ≠ tokenCounts.length) :
    mergeSplits chunkSize fuel splits tokenCounts combine
      = some (.error mergeMismatchMsg) := by
  unfold mergeSplits
  rw [if_neg (by simp [h1, h2]), if_pos h3]

/-- Witness for C3's amended statement at a concrete mismatched input. -/
theorem c3_mismatch_error_witness :
    mergeSplits 5 3 [("a").toList] [.fin 1, .fin 2] false
      = some (.error mergeMismatchMsg) :=
  c3_mismatch_error 5 3 [("a").toList] [.fin 1, .fin 2] false
    (by decide) (by decide) (by decide)

/-- The `+inf` cumulative array `[0, inf, inf]` that token counts
`[inf, 1]` produce (with or without the whitespace `+1`). -/
theorem mergeLoop_pinf_example (combine : Bool) (s1 s2 : Str) (fuel : Nat) :
    mergeLoop 1 combine [s1, s2] [.fin 0, .pinf, .pinf] fuel 1 = none := by
  have hval : ∀ i, i < ([FVal.fin 0, FVal.pinf, FVal.pinf] : List FVal).length →
      FVal.isTC (([FVal.fin 0, FVal.pinf, FVal.pinf] : List FVal).getD i .nan) := by
    intro i hi
    simp only [List.length_cons, List.length_nil] at hi
    interval_cases i <;> decide
  have hup : ∀ i j, i ≤ j →
      j < ([FVal.fin 0, FVal.pinf, FVal.pinf] : List FVal).length →
      ([FVal.fin 0, FVal.pinf, FVal.pinf] : List FVal).getD i .nan = .pinf →
      ([FVal.fin 0, FVal.pinf, FVal.pinf] : List FVal).getD j .nan = .pinf := by
    intro i j hij hj hp
    simp only [List.length_cons, List.length_nil] at hj
    interval_cases j <;> interval_cases i <;> simp_all
  exact @mergeLoop_pinf_none 1 combine [s1, s2] [.fin 0, .pinf, .pinf]
    (by decide) (by simp) (by decide) hval hup fuel 1 (by simp) (by decide)

/-- On pieces `[s1, s2]` with token counts `[inf, 1]` and `chunk_size=1`,
`_merge_splits` never returns: the first iteration advances to index 1,
whose cumulative count is `inf`, and from there the loop cycles between
indices 1 and 0 forever. -/
theorem mergeSplits_hang (combine : Bool) (s1 s2 : Str) :
    ∀ fuel, mergeSplits 1 fuel [s1, s2] [.pinf, .fin 1] combine = none := by
  intro fuel
  unfold mergeSplits
  rw [if_neg (by simp), if_neg (by simp), if_neg (by decide)]
  have hc : cumulative [FVal.pinf, FVal.fin 1] combine
      = [.fin 0, .pinf, .pinf] := by cases combine <;> decide
  rw [hc]
  suffices h : mergeLoop 1 combine [s1, s2] [.fin 0, .pinf, .pinf] fuel 0
      = none by rw [h]; rfl
  cases fuel with
  | zero => rfl
  | succ f =>
    have hrec := mergeLoop_pinf_example combine s1 s2 f
    show (match mergeLoop 1 combine [s1, s2]
        [FVal.fin 0, FVal.pinf, FVal.pinf] f 1 with
      | none => none
      | some (ms, ds) =>
        some (joinPieces combine (sliceList [s1, s2] 0 1) :: ms,
          FVal.sub (([FVal.fin 0, FVal.pinf, FVal.pinf] : List FVal).getD
              (min 1 2) .nan)
            (([FVal.fin 0, FVal.pinf, FVal.pinf] : List FVal).getD 0 .nan)
            :: ds)) = none
    rw [hrec]

/-- C8 (refutation by evaluation): pieces `["a", "b"]` with token counts
`[inf, 1]` and `chunk_size=1` are a non-empty equal-length merger input on
which the loop does not advance at every iteration — it moves
`current_index` from 1 back to 0 and cycles, so `_merge_splits` diverges
for every amount of fuel instead of finishing within `len(pieces)` steps. -/
theorem c8_merge_progress_divergence :
    ∀ fuel, mergeSplits 1 fuel [("a").toList, ("b").toList]
      [.pinf, .fin 1] false = none :=
  mergeSplits_hang false (("a").toList) (("b").toList)

/-- The configuration refuting C2: two rules, final level token-window. -/
def c2cfg : ChunkerCfg := ⟨1, 1, .chunks, [.whitespace, .tokenWindow]⟩

/-- The input refuting C2: a 12-character word (estimated `inf`) and a
1-character word. -/
def c2text : Str := ("aaaaaaaaaaaa b").toList

/-- C2 (refutation by evaluation): with rules `[whitespace, token-window]`
(final level token-window mode), `chunk_size=1` and a character-level
tokenizer, `chunk("aaaaaaaaaaaa b")` never returns: the level-0 whitespace
merge receives token counts `[inf, 1]` and its loop cycles between indices
1 and 0 forever, so the driver diverges for every amount of fuel. -/
theorem c2_driver_divergence :
    ∀ mfuel fuel, chunk charTok c2cfg mfuel fuel c2text = none := by
  intro mfuel fuel
  cases fuel with
  | zero => rfl
  | succ f =>
    have hsp : splitText charTok c2cfg (c2cfg.rules.getD 0 .tokenWindow) c2text
        = [("aaaaaaaaaaaa").toList, ("b").toList] := by decide
    have htc : ([("aaaaaaaaaaaa").toList, ("b").toList] : List Str).map
        (estimateTokenCount charTok c2cfg) = [.pinf, .fin 1] := by decide
    have hm := mergeSplits_hang true (("aaaaaaaaaaaa").toList)
      (("b").toList) mfuel
    unfold chunk
    simp only [chunkRun]
    rw [if_neg (by decide), if_neg (by decide)]
    simp only [hsp, htc]
    simp only [show c2cfg.rules.getD 0 RLevel.tokenWindow = .whitespace from
      rfl, show c2cfg.chunkSize = 1 from rfl, hm]

/-- C10: for every equal-length pieces/token-counts merger input (token
counts being Python ints or `inf`, as `_estimate_token_count` produces)
merged with `combine_whitespace=False`, whenever `_merge_splits` returns,
concatenating the merged output pieces in order yields exactly the
concatenation of the input pieces in order: no characters are added,
dropped, or reordered. -/
theorem c10_concat_preservation (chunkSize fuel : Nat) (splits : List Str)
    (tokenCounts : List FVal) (ms : List Str) (ds : List FVal)
    (hcs : 0 < chunkSize)
    (hlen : splits.length = tokenCounts.length)
    (hv : ∀ v ∈ tokenCounts, FVal.isTC v)
    (h : mergeSplits chunkSize fuel splits tokenCounts false
      = some (.ok (ms, ds))) :
    ms.flatten = splits.flatten := by
  unfold mergeSplits at h
  by_cases he : splits = [] ∨ tokenCounts = []
  · rw [if_pos he] at h
    simp only [Option.some.injEq, Except.ok.injEq, Prod.mk.injEq] at h
    have hsp : splits = [] := by
      rcases he with he | he
      · exact he
      · rw [he] at hlen
        exact List.eq_nil_of_length_eq_zero hlen
    rw [← h.1, hsp]
  · rw [if_neg he, if_neg (by omega)] at h
    by_cases hall : tokenCounts.all (fun v => FVal.gt v (.fin chunkSize))
        = true
    · rw [if_pos hall] at h
      simp only [Option.some.injEq, Except.ok.injEq, Prod.mk.injEq] at h
      rw [← h.1]
    · rw [if_neg hall] at h
      have hml : mergeLoop chunkSize false splits
          (cumulative tokenCounts false) fuel 0 = some (ms, ds) := by
        cases hx : mergeLoop chunkSize false splits
            (cumulative tokenCounts false) fuel 0 with
        | none => rw [hx] at h; cases h
        | some p =>
          rw [hx] at h
          simp only [Option.map_some', Option.some.injEq, Except.ok.injEq]
            at h
          rw [h]
      have := mergeLoop_join hcs
        ((cumulative_length tokenCounts false).trans (by omega))
        (cumulative_zero tokenCounts false)
        (cumulative_isTC tokenCounts false hv)
        (cumulative_pinf_upward tokenCounts false hv)
        fuel 0 ms ds hml
      simpa using this

/-- Witness for C10: merging `["a","b","c"]` with counts `[1,1,1]` and
chunk size 3 yields `["ab","c"]`, whose concatenation is `"abc"`. -/
theorem c10_concat_witness :
    ([("ab").toList, ("c").toList] : List Str).flatten
      = ([("a").toList, ("b").toList, ("c").toList] : List Str).flatten :=
  c10_concat_preservation 3 10
    [("a").toList, ("b").toList, ("c").toList] [.fin 1, .fin 1, .fin 1]
    [("ab").toList, ("c").toList] [.fin 2, .fin 1]
    (by decide) (by decide) (by decide) (by decide)

theorem preMergeStep_invariant (minChars : Nat) (st : Str × List Str)
    (a : Str) (h : ∀ m ∈ st.2, minChars ≤ m.length) :
    ∀ m ∈ (preMergeStep minChars st a).2, minChars ≤ m.length := by
  have hcore : ∀ (br : Str × List Str), (∀ m ∈ br.2, minChars ≤ m.length) →
      ∀ m ∈ (if minChars ≤ br.1.length then (([] : Str), br.2 ++ [br.1])
        else br).2, minChars ≤ m.length := by
    intro br hbr
    split
    · rename_i hc
      intro m hm
      rcases List.mem_append.mp hm with hm2 | hm2
      · exact hbr m hm2
      · rw [List.mem_singleton] at hm2
        subst hm2
        exact hc
    · exact hbr
  unfold preMergeStep
  apply hcore
  split
  · exact h
  · split
    · intro m hm
      rcases List.mem_append.mp hm with hm2 | hm2
      · exact h m hm2
      · rw [List.mem_singleton] at hm2
        subst hm2
        rw [List.length_append]
        rename_i ha _
        omega
    · intro m hm
      rcases List.mem_append.mp hm with hm2 | hm2
      · exact h m hm2
      · rw [List.mem_singleton] at hm2
        subst hm2
        rename_i ha _
        omega

theorem preMerge_short_only_last (minChars : Nat) (hmin : 1 ≤ minChars)
    (splits : List Str) :
    (∀ p ∈ preMerge minChars splits, p ≠ []) ∧
    ∀ i, i + 1 < (preMerge minChars splits).length →
      minChars ≤ ((preMerge minChars splits).getD i []).length := by
  have hfold : ∀ m ∈ (splits.foldl (preMergeStep minChars)
      (([] : Str), [])).2, minChars ≤ m.length := by
    suffices hgen : ∀ (l : List Str) (st : Str × List Str),
        (∀ m ∈ st.2, minChars ≤ m.length) →
        ∀ m ∈ (l.foldl (preMergeStep minChars) st).2, minChars ≤ m.length by
      exact hgen splits (([] : Str), []) (by intro m hm; cases hm)
    intro l
    induction l with
    | nil => intro st h; simpa using h
    | cons a t ih =>
      intro st h
      rw [List.foldl_cons]
      exact ih _ (preMergeStep_invariant minChars st a h)
  unfold preMerge
  dsimp only
  constructor
  · intro p hp
    split at hp
    · rcases List.mem_append.mp hp with hm | hm
      · have := hfold p hm
        intro hnil
        rw [hnil] at this
        simp at this
        omega
      · rw [List.mem_singleton] at hm
        subst hm
        rename_i hc
        exact hc
    · have := hfold p hp
      intro hnil
      rw [hnil] at this
      simp at this
      omega
  · intro i hi
    split
    · rename_i hc
      split at hi
      · rw [List.length_append, List.length_singleton] at hi
        rw [List.getD_append _ _ _ _ (by omega)]
        exact hfold _ (getD_mem_of_lt (by omega))
      · exact absurd hc (by assumption)
    · rename_i hc
      split at hi
      · exact absurd hc (by simp_all)
      · exact hfold _ (getD_mem_of_lt (by omega))

/-- C9: in delimiter mode, every piece returned by `_split` is a
non-empty string, and every returned piece except possibly the last has
length at least `min_characters_per_chunk` (the trailing pre-merge buffer
flush is the only possibly-short piece and it lands last). -/
theorem c9_delim_pieces_invariant (tok : Tokenizer) (cfg : ChunkerCfg)
    (delims : List Str) (policy : DelimPolicy) (text : Str)
    (hmin : 1 ≤ cfg.minCharsPerChunk) :
    (∀ p ∈ splitText tok cfg (.delimiters delims policy) text, p ≠ []) ∧
    ∀ i, i + 1 < (splitText tok cfg (.delimiters delims policy) text).length →
      cfg.minCharsPerChunk ≤
        ((splitText tok cfg (.delimiters delims policy) text).getD i
          []).length := by
  unfold splitText
  exact preMerge_short_only_last cfg.minCharsPerChunk hmin _

/-- Witness for C9: splitting `"ab.cdef.g"` on `"."` with threshold 3
yields `["abcdef", "g"]`; the non-final piece meets the threshold and the
pieces are non-empty. -/
theorem c9_delim_witness :
    3 ≤ ((splitText charTok ⟨10, 3, .chunks, []⟩
        (.delimiters [(".").toList] .drop) (("ab.cdef.g").toList)).getD 0
        []).length ∧
    ("g").toList ≠ ([] : Str) := by
  constructor
  · exact (c9_delim_pieces_invariant charTok ⟨10, 3, .chunks, []⟩
      [(".").toList] .drop (("ab.cdef.g").toList) (by decide)).2 0 (by decide)
  · exact (c9_delim_pieces_invariant charTok ⟨10, 3, .chunks, []⟩
      [(".").toList] .drop (("ab.cdef.g").toList) (by decide)).1
      (("g").toList) (by decide)

/-- C4 counterexample: with pieces `["aaa","bb"]`, token counts `[3,2]`
and `chunk_size=5` the cumulative sums are `[0,3,5]`.  The farthest index
whose cumulative sum *does not exceed* `0+5` is 2 (sum exactly 5), so the
claim's procedure merges both pieces into one 5-token group; the code's
`bisect_left(...) - 1` only keeps sums strictly below 5 and returns the
two pieces unmerged. -/
theorem c4_counterexample :
    mergeSplits 5 10 [("aaa").toList, ("bb").toList] [.fin 3, .fin 2] false
      = some (.ok ([("aaa").toList, ("bb").toList], [.fin 3, .fin 2])) ∧
    leGreedyMerge 5 10 [("aaa").toList, ("bb").toList] [.fin 3, .fin 2]
      false = some ([("aaabb").toList], [.fin 5]) ∧
    (([("aaa").toList, ("bb").toList], [FVal.fin 3, FVal.fin 2])
      : List Str × List FVal) ≠ ([("aaabb").toList], [.fin 5]) := by
  exact ⟨by decide, by decide, by decide⟩

/-- C4 amended: for every equal-length pieces/token-counts input of
genuine nonnegative token counts not taken by the all-oversized fast
path, whenever `_merge_splits` returns it returns exactly the greedy
merge over the cumulative prefix sums (one extra unit per accumulated
piece when `combine_with_space` is set) whose boundary search selects the
farthest index whose cumulative sum is *strictly below*
`current + chunk_size` (forced to `current + 1` when that yields no
advancement), recording each merged token count as the cumulative-sum
delta. -/
theorem c4_strict_lower_bound (chunkSize fuel : Nat) (splits : List Str)
    (tokenCounts : List FVal) (combine : Bool) (r : List Str × List FVal)
    (hcs : 0 < chunkSize)
    (hlen : splits.length = tokenCounts.length)
    (hv : ∀ v ∈ tokenCounts, FVal.isNNTC v)
    (hfast : ¬ tokenCounts.all (fun v => FVal.gt v (.fin chunkSize)) = true)
    (h : mergeSplits chunkSize fuel splits tokenCounts combine
      = some (.ok r)) :
    strictGreedyMerge chunkSize fuel splits tokenCounts combine = some r := by
  unfold mergeSplits at h
  unfold strictGreedyMerge
  by_cases he : splits = [] ∨ tokenCounts = []
  · rw [if_pos he] at h
    rw [if_pos he]
    simp only [Option.some.injEq, Except.ok.injEq] at h
    rw [h]
  · rw [if_neg he, if_neg (by omega), if_neg hfast] at h
    rw [if_neg he]
    have hml : mergeLoop chunkSize combine splits
        (cumulative tokenCounts combine) fuel 0 = some r := by
      cases hx : mergeLoop chunkSize combine splits
          (cumulative tokenCounts combine) fuel 0 with
      | none => rw [hx] at h; cases h
      | some p =>
        rw [hx] at h
        simp only [Option.map_some', Option.some.injEq, Except.ok.injEq] at h
        rw [h]
    exact mergeLoop_eq_strictLoop hcs
      ((cumulative_length tokenCounts combine).trans (by omega))
      (cumulative_zero tokenCounts combine)
      (cumulative_isTC tokenCounts combine
        (fun v hv2 => FVal.isTC_of_isNNTC (hv v hv2)))
      (cumulative_pinf_upward tokenCounts combine
        (fun v hv2 => FVal.isTC_of_isNNTC (hv v hv2)))
      (cumulative_mono tokenCounts combine hv) fuel 0 r hml

/-- Witness for C4's amended statement: the code's result on the
counterexample input coincides with the strict-boundary greedy merge. -/
theorem c4_strict_lower_bound_witness :
    strictGreedyMerge 5 10 [("aaa").toList, ("bb").toList]
      [.fin 3, .fin 2] false
      = some ([("aaa").toList, ("bb").toList], [.fin 3, .fin 2]) :=
  c4_strict_lower_bound 5 10 [("aaa").toList, ("bb").toList]
    [.fin 3, .fin 2] false ([("aaa").toList, ("bb").toList],
      [.fin 3, .fin 2])
    (by decide) (by decide) (by decide) (by decide) (by decide)

theorem convertToChunk_level (text : Str) (tokenCount : FVal) (level : Nat)
    (fullText : Option Str) (last : Nat) :
    (convertToChunk text tokenCount level fullText last).level = level := by
  simp only [convertToChunk]
  split <;> rfl

theorem convertToChunk_tokenCount (text : Str) (tokenCount : FVal)
    (level : Nat) (fullText : Option Str) (last : Nat) :
    (convertToChunk text tokenCount level fullText last).tokenCount
      = tokenCount := by
  simp only [convertToChunk]
  split <;> rfl

theorem estimateTokenCount_isTC (tok : Tokenizer) (cfg : ChunkerCfg)
    (text : Str) : FVal.isTC (estimateTokenCount tok cfg text) := by
  unfold estimateTokenCount
  split <;> trivial

/-- Whenever `_merge_splits` returns on genuine token counts, every
combined token count it returns is a Python int or `+inf`. -/
theorem mergeSplits_counts_not_nan (chunkSize fuel : Nat)
    (splits : List Str) (tokenCounts : List FVal) (combine : Bool)
    (ms : List Str) (ds : List FVal)
    (hcs : 0 < chunkSize)
    (hlen : splits.length = tokenCounts.length)
    (hv : ∀ v ∈ tokenCounts, FVal.isTC v)
    (h : mergeSplits chunkSize fuel splits tokenCounts combine
      = some (.ok (ms, ds))) :
    ∀ d ∈ ds, d ≠ .nan := by
  unfold mergeSplits at h
  by_cases he : splits = [] ∨ tokenCounts = []
  · rw [if_pos he] at h
    simp only [Option.some.injEq, Except.ok.injEq, Prod.mk.injEq] at h
    rw [← h.2]
    intro d hd
    cases hd
  · rw [if_neg he, if_neg (by omega)] at h
    by_cases hall : tokenCounts.all (fun v => FVal.gt v (.fin chunkSize))
        = true
    · rw [if_pos hall] at h
      simp only [Option.some.injEq, Except.ok.injEq, Prod.mk.injEq] at h
      rw [← h.2]
      intro d hd
      have := hv d hd
      intro hn
      rw [hn] at this
      cases this
    · rw [if_neg hall] at h
      have hml : mergeLoop chunkSize combine splits
          (cumulative tokenCounts combine) fuel 0 = some (ms, ds) := by
        cases hx : mergeLoop chunkSize combine splits
            (cumulative tokenCounts combine) fuel 0 with
        | none => rw [hx] at h; cases h
        | some p =>
          rw [hx] at h
          simp only [Option.map_some', Option.some.injEq, Except.ok.injEq]
            at h
          rw [h]
      exact mergeLoop_counts_not_nan hcs
        ((cumulative_length tokenCounts combine).trans (by omega))
        (cumulative_zero tokenCounts combine)
        (cumulative_isTC tokenCounts combine hv)
        (cumulative_pinf_upward tokenCounts combine hv)
        fuel 0 ms ds hml

theorem FVal.le_of_not_gt_of_ne_nan {v : FVal} {cs : Nat}
    (hn : v ≠ .nan) (hg : FVal.gt v (.fin cs) = false) :
    FVal.le v (.fin cs) = true := by
  cases v <;> simp_all [FVal.gt, FVal.lt, FVal.le] <;> omega

/-- The per-job hypothesis the driver's loop maintains: every pending
merged span carries a non-`nan` token count. -/
def JobCountsOK : Job → Prop
  | .descend _ _ _ => True
  | .loopMerged _ _ _ items => ∀ it ∈ items, it.2 ≠ FVal.nan

/-- Size-bound invariant over the driver: every chunk emitted at a level
where rules remain satisfies `token_count <= chunk_size`. -/
theorem chunkRun_size_bound (tok : Tokenizer) (cfg : ChunkerCfg)
    (mfuel : Nat) (hcs : 0 < cfg.chunkSize) :
    ∀ fuel job out, chunkRun tok cfg mfuel fuel job = some (.ok out) →
      JobCountsOK job →
      ∀ c : RChunk, .chunk c ∈ out → c.level < cfg.rules.length →
        FVal.le c.tokenCount (.fin cfg.chunkSize) = true := by
  intro fuel
  induction fuel with
  | zero => intro job out h; cases h
  | succ f ih =>
    intro job out h hok
    cases job with
    | descend text level fullText =>
      simp only [chunkRun] at h
      by_cases hemp : text = []
      · rw [if_pos hemp] at h
        simp only [Option.some.injEq, Except.ok.injEq] at h
        rw [← h]
        intro c hc
        cases hc
      · rw [if_neg hemp] at h
        by_cases hterm : cfg.rules.length ≤ level
        · rw [if_pos hterm] at h
          cases hrt : cfg.returnType with
          | texts =>
            rw [hrt] at h
            simp only [Option.some.injEq, Except.ok.injEq] at h
            rw [← h]
            intro c hc hlvl
            rcases List.mem_singleton.mp hc with h2
            cases h2
          | chunks =>
            rw [hrt] at h
            simp only [Option.some.injEq, Except.ok.injEq] at h
            rw [← h]
            intro c hc hlvl
            have h3 : c = convertToChunk text (getTokenCount tok text)
                level fullText 0 := Out.chunk.inj (List.mem_singleton.mp hc)
            have h4 : c.level = level := by
              rw [h3]
              exact convertToChunk_level _ _ _ _ _
            omega
        · rw [if_neg hterm] at h
          cases hmr : (match cfg.rules.getD level .tokenWindow with
            | RLevel.tokenWindow =>
              some (Except.ok
                (splitText tok cfg (cfg.rules.getD level .tokenWindow) text,
                  (splitText tok cfg (cfg.rules.getD level .tokenWindow)
                    text).map (estimateTokenCount tok cfg)))
            | RLevel.whitespace =>
              mergeSplits cfg.chunkSize mfuel
                (splitText tok cfg (cfg.rules.getD level .tokenWindow) text)
                ((splitText tok cfg (cfg.rules.getD level .tokenWindow)
                  text).map (estimateTokenCount tok cfg)) true
            | RLevel.delimiters _ _ =>
              mergeSplits cfg.chunkSize mfuel
                (splitText tok cfg (cfg.rules.getD level .tokenWindow) text)
                ((splitText tok cfg (cfg.rules.getD level .tokenWindow)
                  text).map (estimateTokenCount tok cfg)) false) with
          | none => rw [hmr] at h; cases h
          | some res =>
            rw [hmr] at h
            cases res with
            | error e => cases h
            | ok p =>
              obtain ⟨merged, combinedCounts⟩ := p
              have hcnt : ∀ d ∈ combinedCounts, d ≠ FVal.nan := by
                cases hrule : cfg.rules.getD level .tokenWindow with
                | tokenWindow =>
                  rw [hrule] at hmr
                  simp only [Option.some.injEq, Except.ok.injEq,
                    Prod.mk.injEq] at hmr
                  rw [← hmr.2]
                  intro d hd
                  rcases List.mem_map.mp hd with ⟨s, _, hds⟩
                  have := estimateTokenCount_isTC tok cfg s
                  rw [hds] at this
                  intro hn
                  rw [hn] at this
                  cases this
                | whitespace =>
                  rw [hrule] at hmr
                  exact mergeSplits_counts_not_nan cfg.chunkSize mfuel _ _
                    true merged combinedCounts hcs (by rw [List.length_map])
                    (by
                      intro v hv2
                      rcases List.mem_map.mp hv2 with ⟨s, _, hds⟩
                      rw [← hds]
                      exact estimateTokenCount_isTC tok cfg s) hmr
                | delimiters delims policy =>
                  rw [hrule] at hmr
                  exact mergeSplits_counts_not_nan cfg.chunkSize mfuel _ _
                    false merged combinedCounts hcs (by rw [List.length_map])
                    (by
                      intro v hv2
                      rcases List.mem_map.mp hv2 with ⟨s, _, hds⟩
                      rw [← hds]
                      exact estimateTokenCount_isTC tok cfg s) hmr
              refine ih _ out h ?_
              intro it hit
              exact hcnt it.2 (List.of_mem_zip hit).2
    | loopMerged level full chunkFull items =>
      cases items with
      | nil =>
        simp only [chunkRun] at h
        simp only [Option.some.injEq, Except.ok.injEq] at h
        rw [← h]
        intro c hc
        cases hc
      | cons hd tl =>
        obtain ⟨split, tokenCount⟩ := hd
        have hok1 : tokenCount ≠ FVal.nan := hok (split, tokenCount)
          (List.mem_cons_self _ _)
        have hok2 : JobCountsOK (.loopMerged level full chunkFull tl) :=
          fun it hit => hok it (List.mem_cons_of_mem _ hit)
        simp only [chunkRun] at h
        by_cases hgt : FVal.gt tokenCount (.fin cfg.chunkSize) = true
        · rw [if_pos hgt] at h
          cases ha : chunkRun tok cfg mfuel f
              (.descend split (level + 1) (some full)) with
          | none => rw [ha] at h; cases h
          | some resa =>
            rw [ha] at h
            cases resa with
            | error e => cases h
            | ok a =>
              cases hb : chunkRun tok cfg mfuel f
                  (.loopMerged level full chunkFull tl) with
              | none => rw [hb] at h; cases h
              | some resb =>
                rw [hb] at h
                cases resb with
                | error e => cases h
                | ok b =>
                  simp only [Option.some.injEq, Except.ok.injEq] at h
                  rw [← h]
                  intro c hc hlvl
                  rcases List.mem_append.mp hc with hm | hm
                  · exact ih _ a ha trivial c hm hlvl
                  · exact ih _ b hb hok2 c hm hlvl
        · rw [if_neg hgt] at h
          cases hb : chunkRun tok cfg mfuel f
              (.loopMerged level full chunkFull tl) with
          | none => rw [hb] at h; cases h
          | some resb =>
            rw [hb] at h
            cases resb with
            | error e => cases h
            | ok b =>
              simp only [Option.some.injEq, Except.ok.injEq] at h
              rw [← h]
              intro c hc hlvl
              rcases List.mem_cons.mp hc with hm | hm
              · cases hrt : cfg.returnType with
                | texts => rw [hrt] at hm; cases hm
                | chunks =>
                  rw [hrt] at hm
                  cases hm
                  rw [convertToChunk_tokenCount]
                  exact FVal.le_of_not_gt_of_ne_nan hok1
                    (Bool.not_eq_true _ ▸ hgt)
              · exact ih _ b hb hok2 c hm hlvl

/-- C1: for every configuration with a positive chunk size, every chunk
produced by `chunk(text)` at a level where rules remain
(`level < len(rules)`) has `token_count <= chunk_size`; only chunks
produced at the terminal rules-exhausted path (whose recorded `level` is
`>= len(rules)`) may exceed it. -/
theorem c1_size_bound (tok : Tokenizer) (cfg : ChunkerCfg)
    (mfuel fuel : Nat) (text : Str) (out : List Out)
    (hcs : 0 < cfg.chunkSize)
    (h : chunk tok cfg mfuel fuel text = some (.ok out)) :
    ∀ c : RChunk, .chunk c ∈ out → c.level < cfg.rules.length →
      FVal.le c.tokenCount (.fin cfg.chunkSize) = true :=
  chunkRun_size_bound tok cfg mfuel hcs fuel _ out h trivial

/-- Witness for C1: chunking `"ab ab"` with chunk size 3 over one
whitespace rule emits two level-0 chunks of token count 3 <= 3. -/
theorem c1_size_bound_witness :
    FVal.le ((⟨("ab").toList, 0, 2, .fin 3, 0⟩ : RChunk).tokenCount)
      (.fin ((⟨3, 1, .chunks, [.whitespace]⟩ : ChunkerCfg).chunkSize))
      = true :=
  c1_size_bound charTok ⟨3, 1, .chunks, [.whitespace]⟩ 32 4
    (("ab ab").toList)
    [.chunk ⟨("ab").toList, 0, 2, .fin 3, 0⟩,
      .chunk ⟨("ab").toList, 0, 2, .fin 3, 0⟩]
    (by decide) (by decide) ⟨("ab").toList, 0, 2, .fin 3, 0⟩
    (by decide) (by decide)

/-- The configuration of the C5 counterexample. -/
def c5cfg : ChunkerCfg := ⟨2, 1, .chunks, [.whitespace]⟩

/-- C5 counterexample: chunking `"ab ab"` (chunk size 2, one whitespace
rule, character tokenizer) produces two chunks with text `"ab"`, *both*
resolved to offsets `(0, 2)`, although the second `"ab"` occurs at index
3, at/after the previous chunk's end index 2 — the search offset is never
advanced, so the duplicate snaps back to the first occurrence. -/
theorem c5_counterexample :
    chunk charTok c5cfg 32 4 (("ab ab").toList)
      = some (.ok [.chunk ⟨("ab").toList, 0, 2, .fin 2, 1⟩,
        .chunk ⟨("ab").toList, 0, 2, .fin 2, 1⟩]) ∧
    subIndex ((("ab ab").toList).drop 2) (("ab").toList) = some 1 := by
  exact ⟨by decide, by decide⟩

/-- The amended claim's materializer, stated in its words: resolve the
chunk text against its full-text context with *no search offset at all*,
i.e. at the first occurrence of the text in the context (falling back to
`(0, 0)` when the text does not occur). -/
def firstOccChunk (text : Str) (tokenCount : FVal) (level : Nat)
    (F : Str) : RChunk :=
  match subIndex F text with
  | some i => ⟨text, i, i + text.length, tokenCount, level⟩
  | none => ⟨text, 0, 0, tokenCount, level⟩

/-- The driver of the amended claim: identical to `chunkRun` except that
every materialization is `firstOccChunk` applied to the chunk's actual
full-text context (the terminal path's `full_text` resp. the loop's
`"".join(merged) if no_delim else full_text`), with no offset threaded. -/
def chunkRunFirst (tok : Tokenizer) (cfg : ChunkerCfg) (mfuel : Nat) :
    Nat → Job → Option (Except String (List Out))
  | 0, _ => none
  | fuel + 1, .descend text level fullText =>
    if text = [] then some (.ok [])
    else if cfg.rules.length ≤ level then
      match cfg.returnType with
      | .texts => some (.ok [.text text])
      | .chunks => some (.ok [.chunk
          (firstOccChunk text (getTokenCount tok text) level
            (fullText.getD text))])
    else
      let full := fullText.getD text
      let currRule := cfg.rules.getD level .tokenWindow
      let splits := splitText tok cfg currRule text
      let tokenCounts := splits.map (estimateTokenCount tok cfg)
      let mergedRes : Option (Except String (List Str × List FVal)) :=
        match currRule with
        | .tokenWindow => some (.ok (splits, tokenCounts))
        | .whitespace =>
          mergeSplits cfg.chunkSize mfuel splits tokenCounts true
        | .delimiters _ _ =>
          mergeSplits cfg.chunkSize mfuel splits tokenCounts false
      match mergedRes with
      | none => none
      | some (.error e) => some (.error e)
      | some (.ok (merged, combinedCounts)) =>
        let noDelim : Bool :=
          match currRule with
          | .tokenWindow => true
          | _ => false
        let chunkFull := if noDelim then merged.flatten else full
        chunkRunFirst tok cfg mfuel fuel
          (.loopMerged level full chunkFull (merged.zip combinedCounts))
  | fuel + 1, .loopMerged level full chunkFull items =>
    match items with
    | [] => some (.ok [])
    | (split, tokenCount) :: rest =>
      if FVal.gt tokenCount (.fin cfg.chunkSize) then
        match chunkRunFirst tok cfg mfuel fuel
            (.descend split (level + 1) (some full)) with
        | none => none
        | some (.error e) => some (.error e)
        | some (.ok a) =>
          match chunkRunFirst tok cfg mfuel fuel
              (.loopMerged level full chunkFull rest) with
          | none => none
          | some (.error e) => some (.error e)
          | some (.ok b) => some (.ok (a ++ b))
      else
        let item : Out :=
          match cfg.returnType with
          | .chunks => .chunk (firstOccChunk split tokenCount level chunkFull)
          | .texts => .text split
        match chunkRunFirst tok cfg mfuel fuel
            (.loopMerged level full chunkFull rest) with
        | none => none
        | some (.error e) => some (.error e)
        | some (.ok b) => some (.ok (item :: b))

/-- The amended claim's public operation. -/
def chunkFirst (tok : Tokenizer) (cfg : ChunkerCfg) (mfuel fuel : Nat)
    (text : Str) : Option (Except String (List Out)) :=
  chunkRunFirst tok cfg mfuel fuel (.descend text 0 (some text))

/-- With the search offset at its default 0, `_convert_to_chunk` *is* the
offset-free first-occurrence materializer on its context. -/
theorem convertToChunk_zero_eq_firstOcc (text : Str) (tokenCount : FVal)
    (level : Nat) (fullText : Option Str) :
    convertToChunk text tokenCount level fullText 0
      = firstOccChunk text tokenCount level (fullText.getD text) := by
  cases hs : subIndex ((fullText.getD text).drop 0) text with
  | some i =>
    rw [convertToChunk_found hs]
    have hs2 : subIndex (fullText.getD text) text = some i := hs
    simp only [firstOccChunk, hs2, Nat.zero_add]
  | none =>
    rw [convertToChunk_notfound hs]
    have hs2 : subIndex (fullText.getD text) text = none := hs
    simp only [firstOccChunk, hs2]

/-- The driver never threads `last_chunk_end_index` (both call sites
leave it at the default 0), so it coincides with the driver whose
materializer resolves every chunk against its actual full-text context
with no offset at all. -/
theorem chunkRun_eq_chunkRunFirst (tok : Tokenizer) (cfg : ChunkerCfg)
    (mfuel : Nat) :
    ∀ fuel job, chunkRun tok cfg mfuel fuel job
      = chunkRunFirst tok cfg mfuel fuel job := by
  intro fuel
  induction fuel with
  | zero => intro job; rfl
  | succ f ih =>
    intro job
    cases job with
    | descend text level fullText =>
      simp only [chunkRun, chunkRunFirst, convertToChunk_zero_eq_firstOcc,
        ih]
    | loopMerged level full chunkFull items =>
      cases items with
      | nil => rfl
      | cons hd tl =>
        obtain ⟨split, tokenCount⟩ := hd
        simp only [chunkRun, chunkRunFirst, convertToChunk_zero_eq_firstOcc,
          Option.getD_some, ih]

/-- `firstOccChunk` indeed resolves at the *first* occurrence: exact
offsets at the least occurrence index when the text occurs in the
context, and the `(0, 0)` fallback when it does not. -/
theorem firstOccChunk_spec (text : Str) (tokenCount : FVal) (level : Nat)
    (F : Str) :
    ((∃ p, occursAt F p text) →
      occursAt F (firstOccChunk text tokenCount level F).startIndex text ∧
      (∀ j, j < (firstOccChunk text tokenCount level F).startIndex →
        ¬ occursAt F j text) ∧
      (firstOccChunk text tokenCount level F).endIndex
        = (firstOccChunk text tokenCount level F).startIndex
          + text.length) ∧
    ((∀ p, ¬ occursAt F p text) →
      (firstOccChunk text tokenCount level F).startIndex = 0 ∧
      (firstOccChunk text tokenCount level F).endIndex = 0) := by
  cases hs : subIndex F text with
  | some i =>
    constructor
    · intro _
      simp only [firstOccChunk, hs]
      exact ⟨subIndex_some_occurs hs,
        fun j hj => subIndex_some_least hs j hj, trivial⟩
    · intro hno
      exact absurd (subIndex_some_occurs hs) (hno i)
  | none =>
    constructor
    · intro hex
      obtain ⟨p, hp⟩ := hex
      exact absurd hp (subIndex_none_not_occurs hs p)
    · intro _
      simp only [firstOccChunk, hs]
      exact ⟨trivial, trivial⟩

/-- C5 amended: within one top-level `chunk(text)` call the driver never
supplies `_convert_to_chunk`'s `last_chunk_end_index` (both call sites
leave the default 0), so `chunk` is extensionally equal to `chunkFirst`,
the driver whose materializer carries no search offset at all and by
construction resolves each chunk at the first occurrence of its text in
that chunk's actual full-text context; and that materializer provably
returns the least occurrence index with exact offsets (or the `(0, 0)`
fallback when the text does not occur).  Hence duplicate substrings
always resolve to the first occurrence in their context. -/
theorem c5_offsets_first_occurrence :
    (∀ (tok : Tokenizer) (cfg : ChunkerCfg) (mfuel fuel : Nat) (text : Str),
      chunk tok cfg mfuel fuel text = chunkFirst tok cfg mfuel fuel text) ∧
    ∀ (text : Str) (tokenCount : FVal) (level : Nat) (F : Str),
      ((∃ p, occursAt F p text) →
        occursAt F (firstOccChunk text tokenCount level F).startIndex
          text ∧
        (∀ j, j < (firstOccChunk text tokenCount level F).startIndex →
          ¬ occursAt F j text) ∧
        (firstOccChunk text tokenCount level F).endIndex
          = (firstOccChunk text tokenCount level F).startIndex
            + text.length) ∧
      ((∀ p, ¬ occursAt F p text) →
        (firstOccChunk text tokenCount level F).startIndex = 0 ∧
        (firstOccChunk text tokenCount level F).endIndex = 0) :=
  ⟨fun tok cfg mfuel fuel text =>
    chunkRun_eq_chunkRunFirst tok cfg mfuel fuel
      (.descend text 0 (some text)),
   fun text tokenCount level F => firstOccChunk_spec text tokenCount level F⟩

/-- Witness for C5's amended statement: the counterexample run coincides
with the offset-free first-occurrence driver, and on the context
`"ab ab"` the materializer places `"ab"` at the first occurrence,
index 0. -/
theorem c5_offsets_witness :
    chunk charTok c5cfg 32 4 (("ab ab").toList)
      = chunkFirst charTok c5cfg 32 4 (("ab ab").toList) ∧
    occursAt (("ab ab").toList)
      (firstOccChunk (("ab").toList) (.fin 2) 1
        (("ab ab").toList)).startIndex (("ab").toList) ∧
    (firstOccChunk (("ab").toList) (.fin 2) 1
      (("ab ab").toList)).startIndex = 0 :=
  ⟨c5_offsets_first_occurrence.1 charTok c5cfg 32 4 (("ab ab").toList),
   ((c5_offsets_first_occurrence.2 (("ab").toList) (.fin 2) 1
      (("ab ab").toList)).1 ⟨0, by decide⟩).1,
   by decide⟩
